import Mathlib

/-!
Verification of the parsing engine in `src/syntax/parsing.rs`.

The parser is embedded shallowly: the lazy token stream plus one-slot
pushback buffer of the source becomes an explicit `FuncParser` record
(remaining tokens, buffered peek, tokenizer position, feedback), and every
method of the source file becomes a Lean function threading that record.
Recursive descent is bounded by an explicit fuel argument; all theorems
either quantify over the fuel or supply enough of it, and fuel exhaustion
returns an inert value that no theorem relies on.

Types that live outside the given source file (spans, feedback, the token
contract, colors) are modelled from the specification; each such definition
says so in its doc comment.
-/

/-- Modelled from the spec: a source position, line and column, totally
ordered lexicographically (`span.rs` is outside the given source). -/
structure Position where
  line : Nat
  column : Nat
deriving DecidableEq, Repr

def Position.ZERO : Position := ⟨0, 0⟩

/-- Modelled from the spec: lexicographic order on positions. -/
def Position.lexLe (a b : Position) : Prop :=
  a.line < b.line ∨ (a.line = b.line ∧ a.column ≤ b.column)

instance (a b : Position) : Decidable (Position.lexLe a b) := by
  unfold Position.lexLe; infer_instance

/-- Modelled from the spec: a half-open `{start, end}` range of positions
(`end` is a Lean keyword, so the field is called `stop`). -/
structure Span where
  start : Position
  stop : Position
deriving DecidableEq, Repr

def Span.ZERO : Span := ⟨Position.ZERO, Position.ZERO⟩

/-- Modelled from the spec: a zero-width span marking a point. -/
def Span.at (pos : Position) : Span := ⟨pos, pos⟩

/-- Modelled from the spec: the smallest span containing both spans. -/
def Span.merge (a b : Span) : Span :=
  ⟨if Position.lexLe a.start b.start then a.start else b.start,
   if Position.lexLe a.stop b.stop then b.stop else a.stop⟩

/-- A value of type `α` annotated with a span. -/
structure Spanned (α : Type) where
  v : α
  span : Span
deriving DecidableEq, Repr

def Spanned.new (v : α) (span : Span) : Spanned α := ⟨v, span⟩

def Spanned.value (s : Spanned α) : α := s.v

def Spanned.map (f : α → β) (s : Spanned α) : Spanned β := ⟨f s.v, s.span⟩

def Spanned.zero (v : α) : Spanned α := ⟨v, Span.ZERO⟩

/-- Semantic-highlighting decorations pushed by the parser. -/
inductive Decoration where
  | ValidFuncName
  | InvalidFuncName
  | ArgumentKey
  | ObjectKey
deriving DecidableEq, Repr

/-- Modelled from the spec: diagnostics (messages with spans) plus
decorations, each an ordered list (`feedback.rs` is outside the given
source). Only the message text of a problem is modelled. -/
structure Feedback where
  problems : List (Spanned String)
  decos : List (Spanned Decoration)
deriving DecidableEq, Repr

def Feedback.new : Feedback := ⟨[], []⟩

/-- Modelled from the spec: straight concatenation of feedback. -/
def Feedback.extend (fb more : Feedback) : Feedback :=
  ⟨fb.problems ++ more.problems, fb.decos ++ more.decos⟩

/-- Modelled from the spec: translating a locally zero-based position back
into the surrounding coordinate space. A local position on line 0 stays on
the anchor's line and is shifted by its column; later lines are shifted by
the anchor's line only. -/
def Position.offsetBy (start pos : Position) : Position :=
  if pos.line = 0 then ⟨start.line, start.column + pos.column⟩
  else ⟨start.line + pos.line, pos.column⟩

def Span.offsetBy (start : Position) (s : Span) : Span :=
  ⟨Position.offsetBy start s.start, Position.offsetBy start s.stop⟩

/-- Modelled from the spec: translate every span of `more` by `start`, then
concatenate. -/
def Feedback.extend_offset (fb : Feedback) (start : Position) (more : Feedback) : Feedback :=
  ⟨fb.problems ++ more.problems.map (fun s => ⟨s.v, Span.offsetBy start s.span⟩),
   fb.decos ++ more.decos.map (fun s => ⟨s.v, Span.offsetBy start s.span⟩)⟩

def Feedback.push_problem (fb : Feedback) (msg : String) (span : Span) : Feedback :=
  ⟨fb.problems ++ [⟨msg, span⟩], fb.decos⟩

def Feedback.push_deco (fb : Feedback) (d : Decoration) (span : Span) : Feedback :=
  ⟨fb.problems, fb.decos ++ [⟨d, span⟩]⟩

/-- The result of a pass: an output value plus accumulated feedback. -/
structure Pass (α : Type) where
  output : α
  feedback : Feedback

def Pass.new (output : α) (feedback : Feedback) : Pass α := ⟨output, feedback⟩

/-- An identifier. -/
structure Ident where
  name : String
deriving DecidableEq, Repr

/-- A size literal; the unit is normalized away (the size type is outside
the given source, and only carried through by the parser). -/
structure Size where
  points : Rat
deriving DecidableEq, Repr

/-- An RGBA color, with a healed flag (the color type is outside the given
source, and only carried through by the parser). -/
structure RgbaColor where
  r : Nat
  g : Nat
  b : Nat
  a : Nat
  healed : Bool
deriving DecidableEq, Repr

def RgbaColor.new (r g b a : Nat) : RgbaColor := ⟨r, g, b, a, false⟩

def RgbaColor.new_healed (r g b a : Nat) : RgbaColor := ⟨r, g, b, a, true⟩

def hexDigitVal (c : Char) : Option Nat :=
  if '0' ≤ c ∧ c ≤ '9' then some (c.toNat - '0'.toNat)
  else if 'a' ≤ c ∧ c ≤ 'f' then some (c.toNat - 'a'.toNat + 10)
  else if 'A' ≤ c ∧ c ≤ 'F' then some (c.toNat - 'A'.toNat + 10)
  else none

/-- Modelled from the spec: hex color parsing (`color.rs` is outside the
given source). A literal of 3, 4, 6 or 8 hex digits is valid, short forms
duplicating each digit; anything else is invalid. -/
def RgbaColor.from_str (s : String) : Option RgbaColor :=
  match s.data.mapM hexDigitVal with
  | none => none
  | some ds =>
    match ds with
    | [r, g, b] => some (RgbaColor.new (17 * r) (17 * g) (17 * b) 255)
    | [r, g, b, a] => some (RgbaColor.new (17 * r) (17 * g) (17 * b) (17 * a))
    | [r1, r2, g1, g2, b1, b2] =>
      some (RgbaColor.new (16 * r1 + r2) (16 * g1 + g2) (16 * b1 + b2) 255)
    | [r1, r2, g1, g2, b1, b2, a1, a2] =>
      some (RgbaColor.new (16 * r1 + r2) (16 * g1 + g2) (16 * b1 + b2) (16 * a1 + a2))
    | _ => none

/-- The token contract of the external tokenizer, as used by the parser.
Number literals are modelled as rationals; the parser only stores them. -/
inductive Token where
  | Space (newlines : Nat)
  | LineComment (text : String)
  | BlockComment (text : String)
  | Function (header : String) (body : Option (Spanned String)) (terminated : Bool)
  | LeftParen
  | RightParen
  | LeftBrace
  | RightBrace
  | Colon
  | Comma
  | Equals
  | ExprIdent (ident : String)
  | ExprStr (string : String) (terminated : Bool)
  | ExprNumber (num : Rat)
  | ExprSize (size : Size)
  | ExprBool (b : Bool)
  | ExprHex (hex : String)
  | Plus
  | Hyphen
  | Slash
  | Star
  | Underscore
  | Backslash
  | Raw (raw : String) (terminated : Bool)
  | Text (text : String)
  | Invalid (text : String)
deriving DecidableEq, Repr

/-- Modelled from the spec: the human-readable token names used in
`expected ..., found ...` diagnostics (pinned by the source's tests where
they appear there). -/
def Token.name : Token → String
  | .Space _ => "space"
  | .LineComment _ => "line comment"
  | .BlockComment _ => "block comment"
  | .Function _ _ _ => "function"
  | .LeftParen => "opening paren"
  | .RightParen => "closing paren"
  | .LeftBrace => "opening brace"
  | .RightBrace => "closing brace"
  | .Colon => "colon"
  | .Comma => "comma"
  | .Equals => "equals sign"
  | .ExprIdent _ => "identifier"
  | .ExprStr _ _ => "string"
  | .ExprNumber _ => "number"
  | .ExprSize _ => "size"
  | .ExprBool _ => "bool"
  | .ExprHex _ => "hex value"
  | .Plus => "plus"
  | .Hyphen => "minus"
  | .Slash => "slash"
  | .Star => "star"
  | .Underscore => "underscore"
  | .Backslash => "backslash"
  | .Raw _ _ => "raw text"
  | .Text _ => "text"
  | .Invalid _ => "invalid token"

/-- The expression tree of the header grammar. `Tuple` carries its items
directly (the source wraps them in a one-field struct); an `Object` pair is
the product of a spanned key identifier and a spanned value. -/
inductive Expr where
  | Ident (i : Ident)
  | Str (s : String)
  | Number (n : Rat)
  | Size (s : Size)
  | Bool (b : Bool)
  | Color (c : RgbaColor)
  | Neg (e : Spanned Expr)
  | Add (l : Spanned Expr) (r : Spanned Expr)
  | Sub (l : Spanned Expr) (r : Spanned Expr)
  | Mul (l : Spanned Expr) (r : Spanned Expr)
  | Div (l : Spanned Expr) (r : Spanned Expr)
  | Tuple (items : List (Spanned Expr))
  | NamedTuple (name : Spanned Ident) (tuple : Spanned (List (Spanned Expr)))
  | Object (pairs : List (Spanned (Spanned Ident × Spanned Expr)))

/-- A key/value pair of an object or keyword argument. -/
abbrev Pair := Spanned Ident × Spanned Expr

/-- A single function argument: positional or keyword. -/
inductive FuncArg where
  | Pos (e : Expr)
  | Key (pair : Pair)

/-- Modelled from the spec: positional plus keyword arguments, ordered,
duplicates allowed (`func.rs` is outside the given source). -/
structure FuncArgs where
  pos : List (Spanned Expr)
  key : List (Spanned Pair)

def FuncArgs.new : FuncArgs := ⟨[], []⟩

/-- Modelled from the spec: collecting parsed arguments in order into the
positional and keyword lists. -/
def FuncArgs.fromList (l : List (Spanned FuncArg)) : FuncArgs :=
  l.foldl
    (fun args sf =>
      match sf.v with
      | .Pos e => { args with pos := args.pos ++ [⟨e, sf.span⟩] }
      | .Key pr => { args with key := args.key ++ [⟨pr, sf.span⟩] })
    FuncArgs.new

/-- A parsed function header: name plus arguments. -/
structure FuncHeader where
  name : Spanned Ident
  args : FuncArgs

/-- A node of the body syntax tree. `M` is the opaque model value produced
by a registry sub-parser (dynamic in the source). -/
inductive Node (M : Type) where
  | Text (s : String)
  | Space
  | Parbreak
  | Linebreak
  | ToggleBolder
  | ToggleItalic
  | Raw (lines : List String)
  | Model (m : M)

/-- An ordered sequence of spanned nodes. -/
structure SyntaxModel (M : Type) where
  nodes : List (Spanned (Node M))

/-- The sub-parser contract: a function from header and optional body
substring to a model value plus feedback. (The source also passes the parse
context; the context only carries the registry, which the sub-parsers close
over here.) -/
def SubParser (M : Type) := FuncHeader → Option (Spanned String) → Pass M

/-- The function registry: `Ok` with a bound sub-parser when the name is
found, `Err` with the fallback sub-parser otherwise, plus the fallback
itself for unparsable headers. -/
structure Scope (M : Type) where
  getParser : String → Except (SubParser M) (SubParser M)
  getFallbackParser : SubParser M

/-- The state of `FuncParser`: accumulated feedback, the remaining header
tokens, the tokenizer's current position (the end of the last token it
yielded), and the one-slot pushback buffer. -/
structure FuncParser where
  feedback : Feedback
  tokens : List (Spanned Token)
  tokenPos : Position
  peeked : Option (Option (Spanned Token))
deriving DecidableEq, Repr

/-- A fresh parser over already-tokenized header tokens; header
tokenization starts at the local position line 0, column 1. -/
def FuncParser.new (header : List (Spanned Token)) : FuncParser :=
  ⟨Feedback.new, header, ⟨0, 1⟩, none⟩

/-- The tokenizer contract `Tokens::next`: yield the next token and advance
the tokenizer position to its end. -/
def FuncParser.next (p : FuncParser) : Option (Spanned Token) × FuncParser :=
  match p.tokens with
  | [] => (none, p)
  | t :: ts => (some t, { p with tokens := ts, tokenPos := t.span.stop })

/-- Consume and return the next token. -/
def FuncParser.eat (p : FuncParser) : Option (Spanned Token) × FuncParser :=
  match p.peeked with
  | some t => (t, { p with peeked := none })
  | none => p.next

/-- Peek at the next token without consuming it. -/
def FuncParser.peek (p : FuncParser) : Option (Spanned Token) × FuncParser :=
  match p.peeked with
  | some t => (t, p)
  | none =>
    match p.next with
    | (t, p₁) => (t, { p₁ with peeked := some t })

/-- Peek at the unspanned value of the next token. -/
def FuncParser.peekv (p : FuncParser) : Option Token × FuncParser :=
  match p.peek with
  | (t, p₁) => (t.map Spanned.value, p₁)

/-- The position at the end of the last eaten token / start of the peekable
token. -/
def FuncParser.pos (p : FuncParser) : Position :=
  match p.peeked with
  | some (some s) => s.span.start
  | _ => p.tokenPos

def FuncParser.pushProblem (msg : String) (span : Span) (p : FuncParser) : FuncParser :=
  { p with feedback := p.feedback.push_problem msg span }

def FuncParser.pushDeco (d : Decoration) (span : Span) (p : FuncParser) : FuncParser :=
  { p with feedback := p.feedback.push_deco d span }

/-- `expected_found`: an error about an expected thing, showing what was
found instead. -/
def FuncParser.expected_found (thing : String) (found : Spanned Token) (p : FuncParser) : FuncParser :=
  p.pushProblem ("expected " ++ thing ++ ", found " ++ found.v.name) found.span

/-- `expected_at`: an error about a thing expected at a given position. -/
def FuncParser.expected_at (thing : String) (pos : Position) (p : FuncParser) : FuncParser :=
  p.pushProblem ("expected " ++ thing) (Span.at pos)

/-- `expected_found_or_at`: expected-found when a token was found, plain
expected otherwise. -/
def FuncParser.expected_found_or_at
    (thing : String) (found : Option (Spanned Token)) (pos : Position) (p : FuncParser) : FuncParser :=
  match found with
  | some f => p.expected_found thing f
  | none => p.expected_at thing pos

/-- The number of tokens the parser can still consume (buffered token
included). -/
def FuncParser.measure (p : FuncParser) : Nat :=
  p.tokens.length + (match p.peeked with | some (some _) => 1 | _ => 0)

theorem FuncParser.measure_peek (p : FuncParser) : (FuncParser.peek p).2.measure = p.measure := by
  rcases p with ⟨fb, toks, tp, pk⟩
  cases pk with
  | some t => rfl
  | none => cases toks <;> simp [FuncParser.peek, FuncParser.next, FuncParser.measure]

theorem FuncParser.peek_peeked (p : FuncParser) : (FuncParser.peek p).2.peeked = some (FuncParser.peek p).1 := by
  rcases p with ⟨fb, toks, tp, pk⟩
  cases pk with
  | some t => rfl
  | none => cases toks <;> rfl

theorem FuncParser.measure_eat_le (p : FuncParser) : (FuncParser.eat p).2.measure ≤ p.measure := by
  rcases p with ⟨fb, toks, tp, pk⟩
  cases pk with
  | some t => cases t <;> simp [FuncParser.eat, FuncParser.measure]
  | none => cases toks <;> simp [FuncParser.eat, FuncParser.next, FuncParser.measure]

theorem FuncParser.measure_eat_buffered (p : FuncParser) (t : Spanned Token)
    (h : p.peeked = some (some t)) : (FuncParser.eat p).2.measure + 1 = p.measure := by
  rcases p with ⟨fb, toks, tp, pk⟩
  cases h
  simp [FuncParser.eat, FuncParser.measure]

/-- The stop condition of `skip_whitespace`: true on every token that is
not whitespace or a comment. -/
def FuncParser.notWhitespace (t : Token) : Bool :=
  match t with
  | .Space _ | .LineComment _ | .BlockComment _ => false
  | _ => true

/-- `eat_until`: consume tokens until the predicate returns true, also
consuming the matching token when `eat_match` is set. -/
def FuncParser.eat_until (f : Token → Bool) (eat_match : Bool) (p : FuncParser) : FuncParser :=
  match h : p.peek with
  | (none, p₁) => p₁
  | (some t, p₁) =>
    if f t.v then (if eat_match then p₁.eat.2 else p₁)
    else FuncParser.eat_until f eat_match p₁.eat.2
termination_by p.measure
decreasing_by
  have h1 : p₁.peeked = some (some t) := by
    have hp := FuncParser.peek_peeked p
    rw [h] at hp
    exact hp
  have h2 := FuncParser.measure_eat_buffered p₁ t h1
  have h3 : p₁.measure = p.measure := by
    have hp := FuncParser.measure_peek p
    rw [h] at hp
    exact hp
  omega

/-- Skip all whitespace and comment tokens. -/
def FuncParser.skip_whitespace (p : FuncParser) : FuncParser :=
  FuncParser.eat_until FuncParser.notWhitespace false p

/-- Try to parse an identifier; do nothing when the peekable token is no
identifier. -/
def FuncParser.parse_ident (p : FuncParser) : Option (Spanned Ident) × FuncParser :=
  match p.peek with
  | (some st, p₁) =>
    match st.v with
    | .ExprIdent s => (some ⟨⟨s⟩, st.span⟩, p₁.eat.2)
    | _ => (none, p₁)
  | (none, p₁) => (none, p₁)

/-- A per-item grammar for the collection engine: a spanned item, or an
expected-description plus optional fixed error position. -/
def ItemParse (ι : Type) := FuncParser → Except (String × Option Position) (Spanned ι) × FuncParser

/-- One iteration of the collection loop: either the loop finishes with a
final state, or it proceeds with a new state, a new coercibility flag, and
an optional item to append. -/
inductive CollStep (ι : Type) where
  | finished (p : FuncParser)
  | proceed (p : FuncParser) (flag : Bool) (item : Option (Spanned ι))

/-- The body of the collection loop of `parse_collection_comma_aware`,
translated branch for branch from the closure passed to `from_fn`. -/
def collectionStep (parse_item : ItemParse ι) (endTok : Option Token)
    (p : FuncParser) (flag : Bool) : CollStep ι :=
  match (FuncParser.skip_whitespace p).peek with
  | (pk, q) =>
    if pk.map Spanned.value = endTok then .finished q.eat.2
    else if pk = none then
      -- Exhausted without the end token; the end token is a `some` value
      -- here since the previous case would have returned otherwise (the
      -- `none` fallback below is unreachable and mirrors that).
      let q₂ := q.eat.2
      match endTok with
      | some e => .finished (q₂.expected_at e.name q₂.pos)
      | none => .finished q₂
    else
      match parse_item q with
      | (.ok item, p₁) =>
        match (FuncParser.skip_whitespace p₁).peek with
        | (pk₂, r) =>
          if pk₂.map Spanned.value = some Token.Comma then
            .proceed r.eat.2 false (some item)
          else if pk₂.isSome ∧ pk₂.map Spanned.value ≠ endTok then
            .proceed (r.expected_at "comma" item.span.stop) false (some item)
          else
            .proceed r flag (some item)
      | (.error (expected, some posi), p₁) =>
        .proceed (p₁.expected_at expected posi) flag none
      | (.error (expected, none), p₁) =>
        match p₁.peek with
        | (tok, r) =>
          let r₂ := if tok.map Spanned.value ≠ endTok then r.eat.2 else r
          .proceed (r₂.expected_found_or_at expected tok r₂.pos) flag none

/-- The collection loop, iterating `collectionStep` on explicit fuel and
accumulating items in reverse. -/
def collectionLoop (parse_item : ItemParse ι) (endTok : Option Token) :
    Nat → FuncParser → Bool → List (Spanned ι) → List (Spanned ι) × Bool × FuncParser
  | 0, p, flag, acc => (acc.reverse, flag, p)
  | fuel+1, p, flag, acc =>
    match collectionStep parse_item endTok p flag with
    | .finished p₁ => (acc.reverse, flag, p₁)
    | .proceed p₁ flag₁ item =>
      collectionLoop parse_item endTok fuel p₁ flag₁
        (match item with | some it => it :: acc | none => acc)

/-- `parse_collection_comma_aware`: parse a comma-separated collection with
the given item grammar until the end token; also return whether the
collection can be coerced into a single item (no comma appeared). -/
def FuncParser.parse_collection_comma_aware (fuel : Nat) (endTok : Option Token)
    (parse_item : ItemParse ι) (p : FuncParser) :
    (Spanned (List (Spanned ι)) × Bool) × FuncParser :=
  let start := p.pos
  match collectionLoop parse_item endTok fuel p true [] with
  | (items, flag, p₁) => ((⟨items, ⟨start, p₁.pos⟩⟩, flag), p₁)

/-- `parse_collection`: the comma-aware engine with the flag dropped. -/
def FuncParser.parse_collection (fuel : Nat) (endTok : Option Token)
    (parse_item : ItemParse ι) (p : FuncParser) : Spanned (List (Spanned ι)) × FuncParser :=
  match p.parse_collection_comma_aware fuel endTok parse_item with
  | ((items, _), p₁) => (items, p₁)

/-- `unescape_string` on character lists: recognize the four escapes,
pass any other escaped character through with its backslash, keep a lone
trailing backslash. -/
def unescape_string_chars : List Char → List Char
  | [] => []
  | '\\' :: rest =>
    match rest with
    | '\\' :: r => '\\' :: unescape_string_chars r
    | '"' :: r => '"' :: unescape_string_chars r
    | 'n' :: r => '\n' :: unescape_string_chars r
    | 't' :: r => '\t' :: unescape_string_chars r
    | c :: r => '\\' :: c :: unescape_string_chars r
    | [] => ['\\']
  | c :: rest => c :: unescape_string_chars rest

/-- `unescape_string`: unescape a string literal's content. -/
def unescape_string (s : String) : String := ⟨unescape_string_chars s.data⟩

/-- `parse_binop`: after a left operand, peek for an operator of the given
tier; on a match, require a right operand, else report it missing and keep
the left operand. -/
def FuncParser.parse_binop (o1 : Spanned Expr) (operand_name : String)
    (parse_operand : FuncParser → Option (Spanned Expr) × FuncParser)
    (parse_op : Token → Option (Spanned Expr → Spanned Expr → Expr))
    (p : FuncParser) : Option (Spanned Expr) × FuncParser :=
  match (FuncParser.skip_whitespace p).peek with
  | (some next, p₁) =>
    match parse_op next.v with
    | some binop =>
      let p₂ := FuncParser.skip_whitespace p₁.eat.2
      match parse_operand p₂ with
      | (some o2, p₃) => (some ⟨binop o1 o2, Span.merge o1.span o2.span⟩, p₃)
      | (none, p₃) =>
        (some o1, p₃.pushProblem ("missing right " ++ operand_name) (Span.merge next.span o1.span))
    | none => (some o1, p₁)
  | (none, p₁) => (some o1, p₁)

mutual

/-- `parse_expr`: additive tier; recurses into itself for the right
operand. -/
def FuncParser.parse_expr : Nat → FuncParser → Option (Spanned Expr) × FuncParser
  | 0, p => (none, p)
  | fuel+1, p =>
    match FuncParser.parse_term fuel p with
    | (none, p₁) => (none, p₁)
    | (some o1, p₁) =>
      FuncParser.parse_binop o1 "summand"
        (fun q => FuncParser.parse_expr fuel q)
        (fun t =>
          match t with
          | .Plus => some Expr.Add
          | .Hyphen => some Expr.Sub
          | _ => none)
        p₁
termination_by fuel p => fuel

/-- `parse_term`: multiplicative tier; recurses into itself for the right
operand. -/
def FuncParser.parse_term : Nat → FuncParser → Option (Spanned Expr) × FuncParser
  | 0, p => (none, p)
  | fuel+1, p =>
    match FuncParser.parse_factor fuel p with
    | (none, p₁) => (none, p₁)
    | (some o1, p₁) =>
      FuncParser.parse_binop o1 "factor"
        (fun q => FuncParser.parse_term fuel q)
        (fun t =>
          match t with
          | .Star => some Expr.Mul
          | .Slash => some Expr.Div
          | _ => none)
        p₁
termination_by fuel p => fuel

/-- `parse_factor`: a value or a negated value. -/
def FuncParser.parse_factor : Nat → FuncParser → Option (Spanned Expr) × FuncParser
  | 0, p => (none, p)
  | fuel+1, p =>
    match p.peek with
    | (none, p₁) => (none, p₁)
    | (some first, p₁) =>
      if first.v = Token.Hyphen then
        let p₂ := FuncParser.skip_whitespace p₁.eat.2
        match FuncParser.parse_value fuel p₂ with
        | (some factor, p₃) => (some ⟨Expr.Neg factor, Span.merge first.span factor.span⟩, p₃)
        | (none, p₃) => (none, p₃.pushProblem "dangling minus" first.span)
      else FuncParser.parse_value fuel p₁
termination_by fuel p => fuel

/-- `parse_value`: primary values; a parenthesized group with no comma and
at least one item is coerced into its single item. -/
def FuncParser.parse_value : Nat → FuncParser → Option (Spanned Expr) × FuncParser
  | 0, p => (none, p)
  | fuel+1, p =>
    match p.peek with
    | (none, p₁) => (none, p₁)
    | (some first, p₁) =>
      match first.v with
      | .ExprIdent i =>
        let name : Spanned Ident := ⟨⟨i⟩, first.span⟩
        let p₂ := p₁.eat.2
        match p₂.peekv with
        | (some Token.LeftParen, p₃) =>
          match FuncParser.parse_named_tuple fuel name p₃ with
          | (t, p₄) => (some (t.map (fun nt => Expr.NamedTuple nt.1 nt.2)), p₄)
        | (_, p₃) => (some (name.map Expr.Ident), p₃)
      | .ExprStr s terminated =>
        let p₂ := if terminated then p₁ else p₁.expected_at "quote" first.span.stop
        (some ⟨Expr.Str (unescape_string s), first.span⟩, p₂.eat.2)
      | .ExprNumber n => (some ⟨Expr.Number n, first.span⟩, p₁.eat.2)
      | .ExprSize s => (some ⟨Expr.Size s, first.span⟩, p₁.eat.2)
      | .ExprBool b => (some ⟨Expr.Bool b, first.span⟩, p₁.eat.2)
      | .ExprHex s =>
        match RgbaColor.from_str s with
        | some color => (some ⟨Expr.Color color, first.span⟩, p₁.eat.2)
        | none =>
          let p₂ := p₁.pushProblem "invalid color" first.span
          (some ⟨Expr.Color (RgbaColor.new_healed 0 0 0 255), first.span⟩, p₂.eat.2)
      | .LeftParen =>
        match FuncParser.parse_tuple fuel p₁ with
        | ((tuple, can_be_coerced), p₂) =>
          if can_be_coerced ∧ 0 < tuple.v.length then
            (some (tuple.v.getLast?.getD ⟨Expr.Tuple [], Span.ZERO⟩), p₂)
          else
            (some (tuple.map Expr.Tuple), p₂)
      | .LeftBrace =>
        match FuncParser.parse_object fuel p₁ with
        | (obj, p₂) => (some (obj.map Expr.Object), p₂)
      | _ => (none, p₁)
termination_by fuel p => fuel

/-- `parse_tuple`: eat the opening paren, then collect expressions until
the closing paren; the boolean says whether the tuple can be coerced. -/
def FuncParser.parse_tuple : Nat → FuncParser →
    (Spanned (List (Spanned Expr)) × Bool) × FuncParser
  | 0, p => ((⟨[], Span.ZERO⟩, true), p)
  | fuel+1, p =>
    let p₁ := p.eat.2
    FuncParser.parse_collection_comma_aware fuel (some Token.RightParen)
      (fun q =>
        match FuncParser.parse_expr fuel q with
        | (some it, q₁) => (.ok it, q₁)
        | (none, q₁) => (.error ("value", none), q₁))
      p₁
termination_by fuel p => fuel

/-- `parse_named_tuple`: a tuple with a given preceding name. -/
def FuncParser.parse_named_tuple : Nat → Spanned Ident → FuncParser →
    Spanned (Spanned Ident × Spanned (List (Spanned Expr))) × FuncParser
  | 0, name, p => (⟨(name, ⟨[], Span.ZERO⟩), Span.ZERO⟩, p)
  | fuel+1, name, p =>
    match FuncParser.parse_tuple fuel p with
    | ((tuple, _), p₁) =>
      (⟨(name, tuple), Span.merge name.span tuple.span⟩, p₁)
termination_by fuel name p => fuel

/-- `parse_object`: eat the opening brace, then collect key/colon/value
pairs until the closing brace. -/
def FuncParser.parse_object : Nat → FuncParser → Spanned (List (Spanned Pair)) × FuncParser
  | 0, p => (⟨[], Span.ZERO⟩, p)
  | fuel+1, p =>
    let p₁ := p.eat.2
    FuncParser.parse_collection fuel (some Token.RightBrace)
      (fun q =>
        match q.parse_ident with
        | (none, q₁) => (.error ("key", none), q₁)
        | (some key, q₁) =>
          let behind_key := q₁.pos
          let q₂ := FuncParser.skip_whitespace q₁
          match q₂.peekv with
          | (pk, q₃) =>
            if pk ≠ some Token.Colon then (.error ("colon", some behind_key), q₃)
            else
              let q₄ := FuncParser.skip_whitespace q₃.eat.2
              let q₅ := q₄.pushDeco Decoration.ObjectKey key.span
              match FuncParser.parse_expr fuel q₅ with
              | (none, q₆) => (.error ("value", none), q₆)
              | (some value, q₆) =>
                (.ok ⟨(key, value), Span.merge key.span value.span⟩, q₆))
      p₁
termination_by fuel p => fuel

end

/-- The per-item grammar of the argument list: keyword argument, named
tuple, bare identifier, or full expression. -/
def FuncParser.parse_arg_item (fuel : Nat) : ItemParse FuncArg := fun p =>
  match p.parse_ident with
  | (some ident, p₁) =>
    match p₁.peekv with
    | (some Token.LeftParen, p₂) =>
      match FuncParser.parse_named_tuple fuel ident p₂ with
      | (t, p₃) => (.ok (t.map (fun nt => FuncArg.Pos (Expr.NamedTuple nt.1 nt.2))), p₃)
    | (_, p₂) =>
      let p₃ := FuncParser.skip_whitespace p₂
      match p₃.peekv with
      | (some Token.Equals, p₄) =>
        let p₅ := FuncParser.skip_whitespace p₄.eat.2
        let p₆ := p₅.pushDeco Decoration.ArgumentKey ident.span
        match FuncParser.parse_expr fuel p₆ with
        | (none, p₇) => (.error ("value", none), p₇)
        | (some value, p₇) =>
          (.ok ⟨FuncArg.Key (ident, value), Span.merge ident.span value.span⟩, p₇)
      | (_, p₄) => (.ok (ident.map (fun id => FuncArg.Pos (Expr.Ident id))), p₄)
  | (none, p₁) =>
    match FuncParser.parse_expr fuel p₁ with
    | (none, p₂) => (.error ("argument", none), p₂)
    | (some value, p₂) => (.ok (value.map FuncArg.Pos), p₂)

/-- `parse_func_args`: a collection with no end token (runs to the end of
the header); the coercibility flag is discarded. -/
def FuncParser.parse_func_args (fuel : Nat) (p : FuncParser) : FuncArgs × FuncParser :=
  match p.parse_collection fuel none (FuncParser.parse_arg_item fuel) with
  | (items, p₁) => (FuncArgs.fromList items.v, p₁)

/-- `parse_func_header`: an identifier, then optionally a colon and an
argument list; `none` when no identifier could be read. -/
def FuncParser.parse_func_header (fuel : Nat) (p : FuncParser) : Option FuncHeader × FuncParser :=
  let start := p.pos
  let p₁ := FuncParser.skip_whitespace p
  match p₁.parse_ident with
  | (none, p₂) =>
    match p₂.eat with
    | (other, p₃) => (none, p₃.expected_found_or_at "identifier" other start)
  | (some name, p₂) =>
    let p₃ := FuncParser.skip_whitespace p₂
    match p₃.eat with
    | (tok, p₄) =>
      match tok.map Spanned.value with
      | some Token.Colon =>
        match p₄.parse_func_args fuel with
        | (args, p₅) => (some ⟨name, args⟩, p₅)
      | some _ => (some ⟨name, FuncArgs.new⟩, p₄.expected_at "colon" name.span.stop)
      | none => (some ⟨name, FuncArgs.new⟩, p₄)

/-- `FuncParser::parse`: parse the header, resolve the name in the scope
(decorating it and reporting unknown names), or fall back to a synthetic
empty header; wrap the sub-parser's output in `Node::Model` and merge its
feedback. -/
def FuncParser.parse (scope : Scope M) (body : Option (Spanned String)) (fuel : Nat)
    (p : FuncParser) : Pass (Node M) :=
  match p.parse_func_header fuel with
  | (some header, p₁) =>
    match scope.getParser header.name.v.name with
    | .ok parser =>
      let p₂ := p₁.pushDeco Decoration.ValidFuncName header.name.span
      let sub := parser header body
      ⟨Node.Model sub.output, p₂.feedback.extend sub.feedback⟩
    | .error parser =>
      let p₂ := p₁.pushProblem "unknown function" header.name.span
      let p₃ := p₂.pushDeco Decoration.InvalidFuncName header.name.span
      let sub := parser header body
      ⟨Node.Model sub.output, p₃.feedback.extend sub.feedback⟩
  | (none, p₁) =>
    let defaultHeader : FuncHeader := ⟨⟨⟨""⟩, Span.ZERO⟩, FuncArgs.new⟩
    let sub := scope.getFallbackParser defaultHeader body
    ⟨Node.Model sub.output, p₁.feedback.extend sub.feedback⟩

/-- Modelled from the spec: the newline characters recognized when raw
markup is split into lines. -/
def is_newline_char (c : Char) : Bool :=
  c = '\n' || c = '\r' || c = '\x0B' || c = '\x0C' ||
    c = '\u0085' || c = '\u2028' || c = '\u2029'

/-- Prepend a character to the first line of a line list. -/
def consLine (c : Char) : List (List Char) → List (List Char)
  | [] => [[c]]
  | l :: ls => (c :: l) :: ls

/-- `unescape_raw` on character lists: only the backtick escape is
recognized; lines are split on newline characters, with a carriage return
followed by a line feed splitting once. -/
def unescape_raw_chars : List Char → List (List Char)
  | [] => [[]]
  | '\\' :: rest =>
    match rest with
    | '`' :: r => consLine '`' (unescape_raw_chars r)
    | c :: r => consLine '\\' (consLine c (unescape_raw_chars r))
    | [] => [['\\']]
  | '\r' :: '\n' :: r => [] :: unescape_raw_chars r
  | c :: rest =>
    if is_newline_char c then [] :: unescape_raw_chars rest
    else consLine c (unescape_raw_chars rest)

/-- `unescape_raw`: unescape raw markup into lines. -/
def unescape_raw (raw : String) : List String :=
  (unescape_raw_chars raw.data).map (fun l => ⟨l⟩)

/-- The top-level body parse loop: one node per token, comments dropped,
whitespace becoming `Space` or `Parbreak`, function tokens dispatched to
`FuncParser` over the re-tokenized header with feedback offset back into
the enclosing coordinate space, and unexpected tokens reported and
skipped. The external tokenizer is injected as `tokenize` (header mode,
local start position line 0, column 1). -/
def parse (tokenize : String → List (Spanned Token)) (scope : Scope M) :
    List (Spanned Token) → Pass (SyntaxModel M)
  | [] => ⟨⟨[]⟩, Feedback.new⟩
  | token :: rest =>
    let tail := parse tokenize scope rest
    let span := token.span
    match token.v with
    | .LineComment _ => tail
    | .BlockComment _ => tail
    | .Space newlines =>
      ⟨⟨⟨if newlines ≥ 2 then Node.Parbreak else Node.Space, token.span⟩ :: tail.output.nodes⟩,
       tail.feedback⟩
    | .Function header body terminated =>
      let headerTokens := tokenize header
      let parsed := FuncParser.parse scope body (headerTokens.length + 2) (FuncParser.new headerTokens)
      let fb := Feedback.new.extend_offset span.start parsed.feedback
      let fb := if terminated then fb else fb.push_problem "expected closing bracket" (Span.at span.stop)
      ⟨⟨⟨parsed.output, token.span⟩ :: tail.output.nodes⟩, fb.extend tail.feedback⟩
    | .Star =>
      ⟨⟨⟨Node.ToggleBolder, token.span⟩ :: tail.output.nodes⟩, tail.feedback⟩
    | .Underscore =>
      ⟨⟨⟨Node.ToggleItalic, token.span⟩ :: tail.output.nodes⟩, tail.feedback⟩
    | .Backslash =>
      ⟨⟨⟨Node.Linebreak, token.span⟩ :: tail.output.nodes⟩, tail.feedback⟩
    | .Raw raw terminated =>
      let fb := if terminated then Feedback.new
        else Feedback.new.push_problem "expected backtick" (Span.at span.stop)
      ⟨⟨⟨Node.Raw (unescape_raw raw), token.span⟩ :: tail.output.nodes⟩, fb.extend tail.feedback⟩
    | .Text s =>
      ⟨⟨⟨Node.Text s, token.span⟩ :: tail.output.nodes⟩, tail.feedback⟩
    | other =>
      ⟨tail.output,
       (Feedback.new.push_problem ("unexpected " ++ other.name) span).extend tail.feedback⟩

set_option maxHeartbeats 1000000
set_option maxRecDepth 8000

/-- C9: `unescape_string` replaces the two-character sequences backslash-
backslash, backslash-quote, backslash-n, backslash-t by backslash, double
quote, newline and tab; any other escaped character is passed through with
its backslash; a lone trailing backslash is preserved; all other
characters are copied verbatim; and the string-level function is the
character-level one. -/
theorem c9_unescape_string_spec :
    (∀ r, unescape_string_chars ('\\' :: '\\' :: r) = '\\' :: unescape_string_chars r)
  ∧ (∀ r, unescape_string_chars ('\\' :: '"' :: r) = '"' :: unescape_string_chars r)
  ∧ (∀ r, unescape_string_chars ('\\' :: 'n' :: r) = '\n' :: unescape_string_chars r)
  ∧ (∀ r, unescape_string_chars ('\\' :: 't' :: r) = '\t' :: unescape_string_chars r)
  ∧ (∀ c r, c ≠ '\\' → c ≠ '"' → c ≠ 'n' → c ≠ 't' →
      unescape_string_chars ('\\' :: c :: r) = '\\' :: c :: unescape_string_chars r)
  ∧ unescape_string_chars ['\\'] = ['\\']
  ∧ (∀ c r, c ≠ '\\' → unescape_string_chars (c :: r) = c :: unescape_string_chars r)
  ∧ (∀ s, unescape_string s = String.mk (unescape_string_chars s.data)) := by
  refine ⟨fun r => rfl, fun r => rfl, fun r => rfl, fun r => rfl, ?_, rfl, ?_, fun s => rfl⟩
  · intro c r h1 h2 h3 h4
    simp [unescape_string_chars, h1, h2, h3, h4]
  · intro c r h1
    simp [unescape_string_chars, h1]

/-- C9 witness: the theorem applied at concrete characters. -/
theorem c9_unescape_string_spec_witness :
    unescape_string_chars ('\\' :: 'x' :: []) = '\\' :: 'x' :: unescape_string_chars []
  ∧ unescape_string_chars ('a' :: []) = 'a' :: unescape_string_chars [] := by
  have h := c9_unescape_string_spec
  exact ⟨h.2.2.2.2.1 'x' [] (by decide) (by decide) (by decide) (by decide),
    h.2.2.2.2.2.2.1 'a' [] (by decide)⟩

/-- C8: a whitespace token consumed by the body parser becomes `Parbreak`
exactly when its newline count is at least 2, and `Space` otherwise; the
node is emitted over the token's span and the rest of the stream is parsed
unchanged. -/
theorem c8_space_parbreak {M : Type} (tokenize : String → List (Spanned Token)) (scope : Scope M)
    (newlines : Nat) (span : Span) (rest : List (Spanned Token)) :
    (parse tokenize scope (⟨Token.Space newlines, span⟩ :: rest)).output.nodes
      = ⟨if newlines ≥ 2 then Node.Parbreak else Node.Space, span⟩
          :: (parse tokenize scope rest).output.nodes
  ∧ ((if newlines ≥ 2 then (Node.Parbreak : Node M) else Node.Space) = Node.Parbreak
      ↔ 2 ≤ newlines) := by
  constructor
  · rfl
  · by_cases h : newlines ≥ 2
    · simp [h]
    · simp only [if_neg h]
      constructor
      · intro hcontra
        exact absurd hcontra (by simp)
      · intro h2
        exact absurd h2 h

/-- C10: a header string-literal token whose terminated flag is false still
yields the `Str` expression with the unescaped content, and additionally
records an `expected quote` diagnostic with a zero-width span at the
token's end position. -/
theorem c10_unterminated_string (fuel : Nat) (s : String) (span : Span)
    (rest : List (Spanned Token)) (fb : Feedback) (tp : Position) :
    (FuncParser.parse_value (fuel+1) ⟨fb, ⟨Token.ExprStr s false, span⟩ :: rest, tp, none⟩).1
        = some ⟨Expr.Str (unescape_string s), span⟩
  ∧ (FuncParser.parse_value (fuel+1) ⟨fb, ⟨Token.ExprStr s false, span⟩ :: rest, tp, none⟩).2.feedback.problems
        = fb.problems ++ [⟨"expected quote", Span.at span.stop⟩] := by
  constructor
  · simp [FuncParser.parse_value, FuncParser.peek, FuncParser.eat, FuncParser.next,
      FuncParser.expected_at, FuncParser.pushProblem, Feedback.push_problem]
  · simp [FuncParser.parse_value, FuncParser.peek, FuncParser.eat, FuncParser.next,
      FuncParser.expected_at, FuncParser.pushProblem, Feedback.push_problem]

/-- C4: when a binary operator token has been consumed but the right
operand parse fails, `parse_binop` records a `missing right <operand
name>` diagnostic spanning the merge of the operator token's span and the
left operand's span, and returns the left operand unchanged; instantiated
at both tiers, `4pt - -` keeps `4pt` with `dangling minus` and `missing
right summand`, and `3mm + 4pt *` keeps the sum with `missing right
factor`, spans as in the source's tests. -/
theorem c4_binop_missing_right (o1 : Spanned Expr) (operand_name : String)
    (parse_operand : FuncParser → Option (Spanned Expr) × FuncParser)
    (parse_op : Token → Option (Spanned Expr → Spanned Expr → Expr))
    (p p₁ p₂ : FuncParser) (next : Spanned Token)
    (binop : Spanned Expr → Spanned Expr → Expr)
    (h1 : (FuncParser.skip_whitespace p).peek = (some next, p₁))
    (h2 : parse_op next.v = some binop)
    (h3 : parse_operand (FuncParser.skip_whitespace p₁.eat.2) = (none, p₂)) :
    FuncParser.parse_binop o1 operand_name parse_operand parse_op p
      = (some o1,
         p₂.pushProblem ("missing right " ++ operand_name) (Span.merge next.span o1.span))
  ∧ (p₂.pushProblem ("missing right " ++ operand_name) (Span.merge next.span o1.span)).feedback.problems
      = p₂.feedback.problems ++ [⟨"missing right " ++ operand_name, Span.merge next.span o1.span⟩]
  ∧ (FuncParser.parse_expr 12 (FuncParser.new
        [⟨Token.ExprSize ⟨4⟩, ⟨⟨0,6⟩,⟨0,9⟩⟩⟩, ⟨Token.Hyphen, ⟨⟨0,9⟩,⟨0,10⟩⟩⟩,
         ⟨Token.Hyphen, ⟨⟨0,10⟩,⟨0,11⟩⟩⟩])).1
      = some ⟨Expr.Size ⟨4⟩, ⟨⟨0,6⟩,⟨0,9⟩⟩⟩
  ∧ (FuncParser.parse_expr 12 (FuncParser.new
        [⟨Token.ExprSize ⟨4⟩, ⟨⟨0,6⟩,⟨0,9⟩⟩⟩, ⟨Token.Hyphen, ⟨⟨0,9⟩,⟨0,10⟩⟩⟩,
         ⟨Token.Hyphen, ⟨⟨0,10⟩,⟨0,11⟩⟩⟩])).2.feedback.problems
      = [⟨"dangling minus", ⟨⟨0,10⟩,⟨0,11⟩⟩⟩, ⟨"missing right summand", ⟨⟨0,6⟩,⟨0,10⟩⟩⟩]
  ∧ (FuncParser.parse_expr 12 (FuncParser.new
        [⟨Token.ExprSize ⟨3⟩, ⟨⟨0,6⟩,⟨0,9⟩⟩⟩, ⟨Token.Plus, ⟨⟨0,9⟩,⟨0,10⟩⟩⟩,
         ⟨Token.ExprSize ⟨4⟩, ⟨⟨0,10⟩,⟨0,13⟩⟩⟩, ⟨Token.Star, ⟨⟨0,13⟩,⟨0,14⟩⟩⟩])).1
      = some ⟨Expr.Add ⟨Expr.Size ⟨3⟩, ⟨⟨0,6⟩,⟨0,9⟩⟩⟩ ⟨Expr.Size ⟨4⟩, ⟨⟨0,10⟩,⟨0,13⟩⟩⟩,
          ⟨⟨0,6⟩,⟨0,13⟩⟩⟩
  ∧ (FuncParser.parse_expr 12 (FuncParser.new
        [⟨Token.ExprSize ⟨3⟩, ⟨⟨0,6⟩,⟨0,9⟩⟩⟩, ⟨Token.Plus, ⟨⟨0,9⟩,⟨0,10⟩⟩⟩,
         ⟨Token.ExprSize ⟨4⟩, ⟨⟨0,10⟩,⟨0,13⟩⟩⟩, ⟨Token.Star, ⟨⟨0,13⟩,⟨0,14⟩⟩⟩])).2.feedback.problems
      = [⟨"missing right factor", ⟨⟨0,10⟩,⟨0,14⟩⟩⟩] := by
  refine ⟨?_, rfl, ?_, ?_, ?_, ?_⟩
  · rw [FuncParser.parse_binop, h1]
    simp only [h2, h3]
  all_goals
    simp [FuncParser.parse_expr, FuncParser.parse_term, FuncParser.parse_factor,
      FuncParser.parse_value, FuncParser.parse_binop, FuncParser.skip_whitespace,
      FuncParser.eat_until, FuncParser.peek, FuncParser.eat, FuncParser.next, FuncParser.peekv,
      FuncParser.pos, FuncParser.new, FuncParser.notWhitespace, FuncParser.pushProblem,
      Feedback.push_problem, Feedback.new, Spanned.value, Spanned.map, Span.merge,
      Position.lexLe]

/-- C4 witness: the theorem applied at a concrete one-token state whose
operand parse fails. -/
theorem c4_binop_missing_right_witness :
    FuncParser.parse_binop ⟨Expr.Number 4, ⟨⟨0,0⟩,⟨0,1⟩⟩⟩ "summand" (fun q => (none, q))
      (fun t =>
        match t with
        | .Plus => some Expr.Add
        | .Hyphen => some Expr.Sub
        | _ => none)
      (FuncParser.new [⟨Token.Hyphen, ⟨⟨0,1⟩,⟨0,2⟩⟩⟩])
    = (some ⟨Expr.Number 4, ⟨⟨0,0⟩,⟨0,1⟩⟩⟩,
       FuncParser.pushProblem ("missing right " ++ "summand")
         (Span.merge ⟨⟨0,1⟩,⟨0,2⟩⟩ ⟨⟨0,0⟩,⟨0,1⟩⟩)
         ⟨Feedback.new, [], ⟨0,2⟩, some none⟩) := by
  have h := c4_binop_missing_right ⟨Expr.Number 4, ⟨⟨0,0⟩,⟨0,1⟩⟩⟩ "summand"
    (fun q => (none, q))
    (fun t =>
      match t with
      | .Plus => some Expr.Add
      | .Hyphen => some Expr.Sub
      | _ => none)
    (FuncParser.new [⟨Token.Hyphen, ⟨⟨0,1⟩,⟨0,2⟩⟩⟩])
    ((FuncParser.skip_whitespace (FuncParser.new [⟨Token.Hyphen, ⟨⟨0,1⟩,⟨0,2⟩⟩⟩])).peek).2
    ⟨Feedback.new, [], ⟨0,2⟩, some none⟩
    ⟨Token.Hyphen, ⟨⟨0,1⟩,⟨0,2⟩⟩⟩
    Expr.Sub
    (by simp [FuncParser.skip_whitespace, FuncParser.eat_until, FuncParser.peek,
      FuncParser.eat, FuncParser.next, FuncParser.new, FuncParser.notWhitespace])
    rfl
    (by simp [FuncParser.skip_whitespace, FuncParser.eat_until, FuncParser.peek,
      FuncParser.eat, FuncParser.next, FuncParser.new, FuncParser.notWhitespace])
  exact h.1

/-- C7: chains of two operators of the same tier parse into right-leaning
trees: `a - b - c` becomes `Sub(a, Sub(b, c))`, and likewise for `+`, `*`
and `/`, with merged spans accumulating to the right. -/
theorem c7_right_associative (a b c : Rat) (s1 s2 s3 s4 s5 : Span) :
    (FuncParser.parse_expr 12 (FuncParser.new
        [⟨Token.ExprNumber a, s1⟩, ⟨Token.Hyphen, s2⟩, ⟨Token.ExprNumber b, s3⟩,
         ⟨Token.Hyphen, s4⟩, ⟨Token.ExprNumber c, s5⟩])).1
      = some ⟨Expr.Sub ⟨Expr.Number a, s1⟩
            ⟨Expr.Sub ⟨Expr.Number b, s3⟩ ⟨Expr.Number c, s5⟩, Span.merge s3 s5⟩,
          Span.merge s1 (Span.merge s3 s5)⟩
  ∧ (FuncParser.parse_expr 12 (FuncParser.new
        [⟨Token.ExprNumber a, s1⟩, ⟨Token.Plus, s2⟩, ⟨Token.ExprNumber b, s3⟩,
         ⟨Token.Plus, s4⟩, ⟨Token.ExprNumber c, s5⟩])).1
      = some ⟨Expr.Add ⟨Expr.Number a, s1⟩
            ⟨Expr.Add ⟨Expr.Number b, s3⟩ ⟨Expr.Number c, s5⟩, Span.merge s3 s5⟩,
          Span.merge s1 (Span.merge s3 s5)⟩
  ∧ (FuncParser.parse_expr 12 (FuncParser.new
        [⟨Token.ExprNumber a, s1⟩, ⟨Token.Star, s2⟩, ⟨Token.ExprNumber b, s3⟩,
         ⟨Token.Star, s4⟩, ⟨Token.ExprNumber c, s5⟩])).1
      = some ⟨Expr.Mul ⟨Expr.Number a, s1⟩
            ⟨Expr.Mul ⟨Expr.Number b, s3⟩ ⟨Expr.Number c, s5⟩, Span.merge s3 s5⟩,
          Span.merge s1 (Span.merge s3 s5)⟩
  ∧ (FuncParser.parse_expr 12 (FuncParser.new
        [⟨Token.ExprNumber a, s1⟩, ⟨Token.Slash, s2⟩, ⟨Token.ExprNumber b, s3⟩,
         ⟨Token.Slash, s4⟩, ⟨Token.ExprNumber c, s5⟩])).1
      = some ⟨Expr.Div ⟨Expr.Number a, s1⟩
            ⟨Expr.Div ⟨Expr.Number b, s3⟩ ⟨Expr.Number c, s5⟩, Span.merge s3 s5⟩,
          Span.merge s1 (Span.merge s3 s5)⟩ := by
  refine ⟨?_, ?_, ?_, ?_⟩
  all_goals
    simp [FuncParser.parse_expr, FuncParser.parse_term, FuncParser.parse_factor,
      FuncParser.parse_value, FuncParser.parse_binop, FuncParser.skip_whitespace,
      FuncParser.eat_until, FuncParser.peek, FuncParser.eat, FuncParser.next, FuncParser.peekv,
      FuncParser.pos, FuncParser.new, FuncParser.notWhitespace, Spanned.value, Spanned.map]

/-- The single-token primary values of the header expression grammar:
identifiers and the literal tokens handled by `parse_value`. -/
inductive PrimaryTok : Token → Prop where
  | ident (s : String) : PrimaryTok (.ExprIdent s)
  | str (s : String) (b : Bool) : PrimaryTok (.ExprStr s b)
  | num (n : Rat) : PrimaryTok (.ExprNumber n)
  | size (z : Size) : PrimaryTok (.ExprSize z)
  | bool (b : Bool) : PrimaryTok (.ExprBool b)
  | hex (s : String) : PrimaryTok (.ExprHex s)

/-- C1: for a primary token `X`, `parse_value` on `(X)` yields the same
spanned expression as `parse_value` on `X` alone; `(X,)` yields the
one-element tuple holding exactly that expression; and `()` is not coerced
and stays the empty tuple. -/
theorem c1_paren_coercion (f g : Nat) (t : Token) (ht : PrimaryTok t)
    (usp lp cm rp : Span) :
    (FuncParser.parse_value (f+1+1+1+1+1+1+1+1+1) (FuncParser.new
        [⟨Token.LeftParen, lp⟩, ⟨t, usp⟩, ⟨Token.RightParen, rp⟩])).1
      = (FuncParser.parse_value (g+1+1+1+1+1+1+1+1+1) (FuncParser.new [⟨t, usp⟩])).1
  ∧ (∀ x, (FuncParser.parse_value (g+1+1+1+1+1+1+1+1+1) (FuncParser.new [⟨t, usp⟩])).1 = some x →
      (FuncParser.parse_value (f+1+1+1+1+1+1+1+1+1) (FuncParser.new
          [⟨Token.LeftParen, lp⟩, ⟨t, usp⟩, ⟨Token.Comma, cm⟩, ⟨Token.RightParen, rp⟩])).1
        = some ⟨Expr.Tuple [x], ⟨lp.stop, rp.stop⟩⟩)
  ∧ (FuncParser.parse_value (f+1+1+1+1+1+1+1+1+1) (FuncParser.new
        [⟨Token.LeftParen, lp⟩, ⟨Token.RightParen, rp⟩])).1
      = some ⟨Expr.Tuple [], ⟨lp.stop, rp.stop⟩⟩ := by
  have empty_case :
      (FuncParser.parse_value (f+1+1+1+1+1+1+1+1+1) (FuncParser.new
        [⟨Token.LeftParen, lp⟩, ⟨Token.RightParen, rp⟩])).1
      = some ⟨Expr.Tuple [], ⟨lp.stop, rp.stop⟩⟩ := by
    simp [FuncParser.parse_value, FuncParser.parse_tuple, FuncParser.parse_collection_comma_aware,
      collectionLoop, collectionStep, FuncParser.parse_expr, FuncParser.parse_term,
      FuncParser.parse_factor, FuncParser.parse_binop, FuncParser.skip_whitespace,
      FuncParser.eat_until, FuncParser.peek, FuncParser.eat, FuncParser.next, FuncParser.peekv,
      FuncParser.pos, FuncParser.new, FuncParser.notWhitespace, Spanned.value, Spanned.map]
  cases ht with
  | ident s =>
    refine ⟨?_, ?_, empty_case⟩
    · simp [FuncParser.parse_value, FuncParser.parse_tuple, FuncParser.parse_collection_comma_aware,
        collectionLoop, collectionStep, FuncParser.parse_expr, FuncParser.parse_term,
        FuncParser.parse_factor, FuncParser.parse_binop, FuncParser.skip_whitespace,
        FuncParser.eat_until, FuncParser.peek, FuncParser.eat, FuncParser.next, FuncParser.peekv,
        FuncParser.pos, FuncParser.new, FuncParser.notWhitespace, Spanned.value, Spanned.map]
    · intro x hx
      simp [FuncParser.parse_value, FuncParser.peek, FuncParser.eat, FuncParser.next,
        FuncParser.peekv, FuncParser.new, Spanned.value, Spanned.map] at hx
      subst hx
      simp [FuncParser.parse_value, FuncParser.parse_tuple, FuncParser.parse_collection_comma_aware,
        collectionLoop, collectionStep, FuncParser.parse_expr, FuncParser.parse_term,
        FuncParser.parse_factor, FuncParser.parse_binop, FuncParser.skip_whitespace,
        FuncParser.eat_until, FuncParser.peek, FuncParser.eat, FuncParser.next, FuncParser.peekv,
        FuncParser.pos, FuncParser.new, FuncParser.notWhitespace, Spanned.value, Spanned.map]
  | str s b =>
    cases b <;> refine ⟨?_, ?_, empty_case⟩ <;>
      first
      | (intro x hx
         simp [FuncParser.parse_value, FuncParser.peek, FuncParser.eat, FuncParser.next,
           FuncParser.peekv, FuncParser.new, FuncParser.expected_at, FuncParser.pushProblem,
           Spanned.value, Spanned.map] at hx
         subst hx
         simp [FuncParser.parse_value, FuncParser.parse_tuple, FuncParser.parse_collection_comma_aware,
           collectionLoop, collectionStep, FuncParser.parse_expr, FuncParser.parse_term,
           FuncParser.parse_factor, FuncParser.parse_binop, FuncParser.skip_whitespace,
           FuncParser.eat_until, FuncParser.peek, FuncParser.eat, FuncParser.next, FuncParser.peekv,
           FuncParser.pos, FuncParser.new, FuncParser.notWhitespace, FuncParser.expected_at,
           FuncParser.pushProblem, Spanned.value, Spanned.map])
      | simp [FuncParser.parse_value, FuncParser.parse_tuple, FuncParser.parse_collection_comma_aware,
          collectionLoop, collectionStep, FuncParser.parse_expr, FuncParser.parse_term,
          FuncParser.parse_factor, FuncParser.parse_binop, FuncParser.skip_whitespace,
          FuncParser.eat_until, FuncParser.peek, FuncParser.eat, FuncParser.next, FuncParser.peekv,
          FuncParser.pos, FuncParser.new, FuncParser.notWhitespace, FuncParser.expected_at,
          FuncParser.pushProblem, Spanned.value, Spanned.map]
  | num n =>
    refine ⟨?_, ?_, empty_case⟩
    · simp [FuncParser.parse_value, FuncParser.parse_tuple, FuncParser.parse_collection_comma_aware,
        collectionLoop, collectionStep, FuncParser.parse_expr, FuncParser.parse_term,
        FuncParser.parse_factor, FuncParser.parse_binop, FuncParser.skip_whitespace,
        FuncParser.eat_until, FuncParser.peek, FuncParser.eat, FuncParser.next, FuncParser.peekv,
        FuncParser.pos, FuncParser.new, FuncParser.notWhitespace, Spanned.value, Spanned.map]
    · intro x hx
      simp [FuncParser.parse_value, FuncParser.peek, FuncParser.eat, FuncParser.next,
        FuncParser.peekv, FuncParser.new, Spanned.value, Spanned.map] at hx
      subst hx
      simp [FuncParser.parse_value, FuncParser.parse_tuple, FuncParser.parse_collection_comma_aware,
        collectionLoop, collectionStep, FuncParser.parse_expr, FuncParser.parse_term,
        FuncParser.parse_factor, FuncParser.parse_binop, FuncParser.skip_whitespace,
        FuncParser.eat_until, FuncParser.peek, FuncParser.eat, FuncParser.next, FuncParser.peekv,
        FuncParser.pos, FuncParser.new, FuncParser.notWhitespace, Spanned.value, Spanned.map]
  | size z =>
    refine ⟨?_, ?_, empty_case⟩
    · simp [FuncParser.parse_value, FuncParser.parse_tuple, FuncParser.parse_collection_comma_aware,
        collectionLoop, collectionStep, FuncParser.parse_expr, FuncParser.parse_term,
        FuncParser.parse_factor, FuncParser.parse_binop, FuncParser.skip_whitespace,
        FuncParser.eat_until, FuncParser.peek, FuncParser.eat, FuncParser.next, FuncParser.peekv,
        FuncParser.pos, FuncParser.new, FuncParser.notWhitespace, Spanned.value, Spanned.map]
    · intro x hx
      simp [FuncParser.parse_value, FuncParser.peek, FuncParser.eat, FuncParser.next,
        FuncParser.peekv, FuncParser.new, Spanned.value, Spanned.map] at hx
      subst hx
      simp [FuncParser.parse_value, FuncParser.parse_tuple, FuncParser.parse_collection_comma_aware,
        collectionLoop, collectionStep, FuncParser.parse_expr, FuncParser.parse_term,
        FuncParser.parse_factor, FuncParser.parse_binop, FuncParser.skip_whitespace,
        FuncParser.eat_until, FuncParser.peek, FuncParser.eat, FuncParser.next, FuncParser.peekv,
        FuncParser.pos, FuncParser.new, FuncParser.notWhitespace, Spanned.value, Spanned.map]
  | bool b =>
    refine ⟨?_, ?_, empty_case⟩
    · simp [FuncParser.parse_value, FuncParser.parse_tuple, FuncParser.parse_collection_comma_aware,
        collectionLoop, collectionStep, FuncParser.parse_expr, FuncParser.parse_term,
        FuncParser.parse_factor, FuncParser.parse_binop, FuncParser.skip_whitespace,
        FuncParser.eat_until, FuncParser.peek, FuncParser.eat, FuncParser.next, FuncParser.peekv,
        FuncParser.pos, FuncParser.new, FuncParser.notWhitespace, Spanned.value, Spanned.map]
    · intro x hx
      simp [FuncParser.parse_value, FuncParser.peek, FuncParser.eat, FuncParser.next,
        FuncParser.peekv, FuncParser.new, Spanned.value, Spanned.map] at hx
      subst hx
      simp [FuncParser.parse_value, FuncParser.parse_tuple, FuncParser.parse_collection_comma_aware,
        collectionLoop, collectionStep, FuncParser.parse_expr, FuncParser.parse_term,
        FuncParser.parse_factor, FuncParser.parse_binop, FuncParser.skip_whitespace,
        FuncParser.eat_until, FuncParser.peek, FuncParser.eat, FuncParser.next, FuncParser.peekv,
        FuncParser.pos, FuncParser.new, FuncParser.notWhitespace, Spanned.value, Spanned.map]
  | hex s =>
    rcases hfs : RgbaColor.from_str s with _ | color <;> refine ⟨?_, ?_, empty_case⟩ <;>
      first
      | (intro x hx
         simp [FuncParser.parse_value, FuncParser.peek, FuncParser.eat, FuncParser.next,
           FuncParser.peekv, FuncParser.new, FuncParser.pushProblem, hfs,
           Spanned.value, Spanned.map] at hx
         subst hx
         simp [FuncParser.parse_value, FuncParser.parse_tuple, FuncParser.parse_collection_comma_aware,
           collectionLoop, collectionStep, FuncParser.parse_expr, FuncParser.parse_term,
           FuncParser.parse_factor, FuncParser.parse_binop, FuncParser.skip_whitespace,
           FuncParser.eat_until, FuncParser.peek, FuncParser.eat, FuncParser.next, FuncParser.peekv,
           FuncParser.pos, FuncParser.new, FuncParser.notWhitespace, FuncParser.pushProblem, hfs,
           Spanned.value, Spanned.map])
      | simp [FuncParser.parse_value, FuncParser.parse_tuple, FuncParser.parse_collection_comma_aware,
          collectionLoop, collectionStep, FuncParser.parse_expr, FuncParser.parse_term,
          FuncParser.parse_factor, FuncParser.parse_binop, FuncParser.skip_whitespace,
          FuncParser.eat_until, FuncParser.peek, FuncParser.eat, FuncParser.next, FuncParser.peekv,
          FuncParser.pos, FuncParser.new, FuncParser.notWhitespace, FuncParser.pushProblem, hfs,
          Spanned.value, Spanned.map]

/-- C1 witness: the theorem applied at the primary token `true` with
concrete spans. -/
theorem c1_paren_coercion_witness :
    (FuncParser.parse_value 9 (FuncParser.new
        [⟨Token.LeftParen, ⟨⟨0,0⟩,⟨0,1⟩⟩⟩, ⟨Token.ExprBool true, ⟨⟨0,1⟩,⟨0,5⟩⟩⟩,
         ⟨Token.RightParen, ⟨⟨0,6⟩,⟨0,7⟩⟩⟩])).1
      = (FuncParser.parse_value 9 (FuncParser.new [⟨Token.ExprBool true, ⟨⟨0,1⟩,⟨0,5⟩⟩⟩])).1
  ∧ (FuncParser.parse_value 9 (FuncParser.new
        [⟨Token.LeftParen, ⟨⟨0,0⟩,⟨0,1⟩⟩⟩, ⟨Token.ExprBool true, ⟨⟨0,1⟩,⟨0,5⟩⟩⟩,
         ⟨Token.Comma, ⟨⟨0,5⟩,⟨0,6⟩⟩⟩, ⟨Token.RightParen, ⟨⟨0,6⟩,⟨0,7⟩⟩⟩])).1
      = some ⟨Expr.Tuple [⟨Expr.Bool true, ⟨⟨0,1⟩,⟨0,5⟩⟩⟩], ⟨⟨0,1⟩, ⟨0,7⟩⟩⟩
  ∧ (FuncParser.parse_value 9 (FuncParser.new
        [⟨Token.LeftParen, ⟨⟨0,0⟩,⟨0,1⟩⟩⟩, ⟨Token.RightParen, ⟨⟨0,6⟩,⟨0,7⟩⟩⟩])).1
      = some ⟨Expr.Tuple [], ⟨⟨0,1⟩, ⟨0,7⟩⟩⟩ := by
  have h := c1_paren_coercion 0 0 (Token.ExprBool true) (PrimaryTok.bool true)
    ⟨⟨0,1⟩,⟨0,5⟩⟩ ⟨⟨0,0⟩,⟨0,1⟩⟩ ⟨⟨0,5⟩,⟨0,6⟩⟩ ⟨⟨0,6⟩,⟨0,7⟩⟩
  exact ⟨h.1,
    h.2.1 ⟨Expr.Bool true, ⟨⟨0,1⟩,⟨0,5⟩⟩⟩
      (by simp [FuncParser.parse_value, FuncParser.peek, FuncParser.eat, FuncParser.next,
        FuncParser.peekv, FuncParser.new, Spanned.value, Spanned.map]),
    h.2.2⟩

/-- C5: when the header parses and the name is not in the registry,
`FuncParser::parse` still wraps the fallback sub-parser's output in
`Node::Model`, pushes an `InvalidFuncName` decoration over the name's span,
and records exactly one `unknown function` diagnostic at the name's span
(exactly one provided neither the feedback so far nor the sub-parser
contributes such a message); a registered name gets a `ValidFuncName`
decoration and no such diagnostic. -/
theorem c5_unknown_function {M : Type} (scope : Scope M) (body : Option (Spanned String))
    (fuel : Nat) (p p₁ : FuncParser) (header : FuncHeader) (parser : SubParser M)
    (h1 : FuncParser.parse_func_header fuel p = (some header, p₁)) :
    (scope.getParser header.name.v.name = .error parser →
      (FuncParser.parse scope body fuel p).output = Node.Model (parser header body).output
    ∧ (FuncParser.parse scope body fuel p).feedback.problems
        = p₁.feedback.problems ++ [⟨"unknown function", header.name.span⟩]
            ++ (parser header body).feedback.problems
    ∧ (FuncParser.parse scope body fuel p).feedback.decos
        = p₁.feedback.decos ++ [⟨Decoration.InvalidFuncName, header.name.span⟩]
            ++ (parser header body).feedback.decos
    ∧ ((∀ pr ∈ p₁.feedback.problems, pr.v ≠ "unknown function") →
       (∀ pr ∈ (parser header body).feedback.problems, pr.v ≠ "unknown function") →
       (FuncParser.parse scope body fuel p).feedback.problems.filter
           (fun pr => pr.v == "unknown function")
         = [⟨"unknown function", header.name.span⟩]))
  ∧ (scope.getParser header.name.v.name = .ok parser →
      (FuncParser.parse scope body fuel p).output = Node.Model (parser header body).output
    ∧ (FuncParser.parse scope body fuel p).feedback.problems
        = p₁.feedback.problems ++ (parser header body).feedback.problems
    ∧ (FuncParser.parse scope body fuel p).feedback.decos
        = p₁.feedback.decos ++ [⟨Decoration.ValidFuncName, header.name.span⟩]
            ++ (parser header body).feedback.decos) := by
  constructor
  · intro h2
    have hmain : FuncParser.parse scope body fuel p
        = ⟨Node.Model (parser header body).output,
           (((p₁.pushProblem "unknown function" header.name.span).pushDeco
              Decoration.InvalidFuncName header.name.span).feedback).extend
             (parser header body).feedback⟩ := by
      rw [FuncParser.parse, h1]
      simp only [h2]
    refine ⟨by rw [hmain], ?_, ?_, ?_⟩
    · rw [hmain]
      simp [FuncParser.pushProblem, FuncParser.pushDeco, Feedback.push_problem,
        Feedback.push_deco, Feedback.extend]
    · rw [hmain]
      simp [FuncParser.pushProblem, FuncParser.pushDeco, Feedback.push_problem,
        Feedback.push_deco, Feedback.extend]
    · intro hc1 hc2
      rw [hmain]
      simp only [FuncParser.pushProblem, FuncParser.pushDeco, Feedback.push_problem,
        Feedback.push_deco, Feedback.extend, List.filter_append]
      have e1 : List.filter (fun pr => pr.v == "unknown function") p₁.feedback.problems = [] :=
        List.filter_eq_nil_iff.mpr (by
          intro a ha
          simp only [beq_iff_eq]
          exact hc1 a ha)
      have e2 : List.filter (fun pr => pr.v == "unknown function")
          (parser header body).feedback.problems = [] :=
        List.filter_eq_nil_iff.mpr (by
          intro a ha
          simp only [beq_iff_eq]
          exact hc2 a ha)
      rw [e1, e2]
      simp
  · intro h2
    have hmain : FuncParser.parse scope body fuel p
        = ⟨Node.Model (parser header body).output,
           ((p₁.pushDeco Decoration.ValidFuncName header.name.span).feedback).extend
             (parser header body).feedback⟩ := by
      rw [FuncParser.parse, h1]
      simp only [h2]
    refine ⟨by rw [hmain], ?_, ?_⟩
    · rw [hmain]
      simp [FuncParser.pushDeco, Feedback.push_deco, Feedback.extend]
    · rw [hmain]
      simp [FuncParser.pushDeco, Feedback.push_deco, Feedback.extend]

/-- C6: when the header cannot be parsed at all, `FuncParser::parse`
invokes the registry's fallback sub-parser on a synthetic header with an
empty name and empty arguments together with the body substring, so a
`Node::Model` holding the fallback's output is still produced. -/
theorem c6_fallback_on_unparsable_header {M : Type} (scope : Scope M)
    (body : Option (Spanned String)) (fuel : Nat) (p p₁ : FuncParser)
    (h1 : FuncParser.parse_func_header fuel p = (none, p₁)) :
    (FuncParser.parse scope body fuel p).output
      = Node.Model (scope.getFallbackParser ⟨⟨⟨""⟩, Span.ZERO⟩, FuncArgs.new⟩ body).output
  ∧ (FuncParser.parse scope body fuel p).feedback
      = p₁.feedback.extend
          (scope.getFallbackParser ⟨⟨⟨""⟩, Span.ZERO⟩, FuncArgs.new⟩ body).feedback := by
  rw [FuncParser.parse, h1]
  exact ⟨rfl, rfl⟩

/-- C5 witness: the theorem applied to a scope that knows no names and a
header holding the single identifier `hi`. -/
theorem c5_unknown_function_witness :
    (FuncParser.parse
        (⟨fun _ => Except.error (fun _ _ => Pass.new () Feedback.new),
          fun _ _ => Pass.new () Feedback.new⟩ : Scope Unit)
        none 1 (FuncParser.new [⟨Token.ExprIdent "hi", ⟨⟨0,1⟩,⟨0,3⟩⟩⟩])).feedback.problems
      = [⟨"unknown function", ⟨⟨0,1⟩,⟨0,3⟩⟩⟩]
  ∧ (FuncParser.parse
        (⟨fun _ => Except.error (fun _ _ => Pass.new () Feedback.new),
          fun _ _ => Pass.new () Feedback.new⟩ : Scope Unit)
        none 1 (FuncParser.new [⟨Token.ExprIdent "hi", ⟨⟨0,1⟩,⟨0,3⟩⟩⟩])).feedback.decos
      = [⟨Decoration.InvalidFuncName, ⟨⟨0,1⟩,⟨0,3⟩⟩⟩] := by
  have h := c5_unknown_function (M := Unit)
    ⟨fun _ => Except.error (fun _ _ => Pass.new () Feedback.new),
      fun _ _ => Pass.new () Feedback.new⟩
    none 1
    (FuncParser.new [⟨Token.ExprIdent "hi", ⟨⟨0,1⟩,⟨0,3⟩⟩⟩])
    ⟨Feedback.new, [], ⟨0,3⟩, none⟩
    ⟨⟨⟨"hi"⟩, ⟨⟨0,1⟩,⟨0,3⟩⟩⟩, FuncArgs.new⟩
    (fun _ _ => Pass.new () Feedback.new)
    (by simp [FuncParser.parse_func_header, FuncParser.parse_ident, FuncParser.skip_whitespace,
      FuncParser.eat_until, FuncParser.peek, FuncParser.eat, FuncParser.next, FuncParser.pos,
      FuncParser.new, FuncParser.notWhitespace, Spanned.value, FuncArgs.new, Feedback.new])
  have h2 := h.1 rfl
  constructor
  · rw [h2.2.1]
    simp [Pass.new, Feedback.new]
  · rw [h2.2.2.1]
    simp [Pass.new, Feedback.new]

/-- C6 witness: the theorem applied to an empty header token stream, where
no identifier can be read. -/
theorem c6_fallback_on_unparsable_header_witness :
    (FuncParser.parse
        (⟨fun _ => Except.error (fun _ _ => Pass.new () Feedback.new),
          fun _ _ => Pass.new () Feedback.new⟩ : Scope Unit)
        none 1 (FuncParser.new [])).output = Node.Model ()
  ∧ (FuncParser.parse
        (⟨fun _ => Except.error (fun _ _ => Pass.new () Feedback.new),
          fun _ _ => Pass.new () Feedback.new⟩ : Scope Unit)
        none 1 (FuncParser.new [])).feedback.problems
      = [⟨"expected identifier", Span.at ⟨0,1⟩⟩] := by
  have h := c6_fallback_on_unparsable_header (M := Unit)
    ⟨fun _ => Except.error (fun _ _ => Pass.new () Feedback.new),
      fun _ _ => Pass.new () Feedback.new⟩
    none 1 (FuncParser.new [])
    ⟨⟨[⟨"expected identifier", Span.at ⟨0,1⟩⟩], []⟩, [], ⟨0,1⟩, none⟩
    (by simp [FuncParser.parse_func_header, FuncParser.parse_ident, FuncParser.skip_whitespace,
      FuncParser.eat_until, FuncParser.peek, FuncParser.eat, FuncParser.next, FuncParser.pos,
      FuncParser.new, FuncParser.notWhitespace, FuncParser.expected_found_or_at,
      FuncParser.expected_at, FuncParser.pushProblem, Feedback.push_problem, Feedback.new,
      Spanned.value])
  exact ⟨h.1, by rw [h.2]; simp [Feedback.extend, Pass.new, Feedback.new]⟩

/-- A proceeding collection step either keeps the coercibility flag or
lowers it to false; it never raises it. -/
theorem collectionStep_flag_cases {ι : Type} (parse_item : ItemParse ι) (endTok : Option Token)
    (p : FuncParser) (flag : Bool) (p' : FuncParser) (flag' : Bool) (it : Option (Spanned ι))
    (h : collectionStep parse_item endTok p flag = .proceed p' flag' it) :
    flag' = flag ∨ flag' = false := by
  simp only [collectionStep] at h
  repeat' split at h
  all_goals
    first
    | (cases h; first | exact Or.inl rfl | exact Or.inr rfl)
    | exact absurd h (by simp)

/-- Once the coercibility flag is false it stays false to the end of the
loop. -/
theorem collectionLoop_false_absorbing {ι : Type} (parse_item : ItemParse ι)
    (endTok : Option Token) :
    ∀ (fuel : Nat) (p : FuncParser) (acc : List (Spanned ι)),
      (collectionLoop parse_item endTok fuel p false acc).2.1 = false := by
  intro fuel
  induction fuel with
  | zero => intro p acc; rfl
  | succ n ih =>
    intro p acc
    rw [collectionLoop]
    cases hstep : collectionStep parse_item endTok p false with
    | finished p₁ => rfl
    | proceed p₁ flag₁ it =>
      rcases collectionStep_flag_cases parse_item endTok p false p₁ flag₁ it hstep with h | h <;>
        (subst h; exact ih p₁ _)

/-- When the loop reports the collection coercible, the flag it started
with was already true. -/
theorem collectionLoop_flag_true {ι : Type} (parse_item : ItemParse ι) (endTok : Option Token) :
    ∀ (fuel : Nat) (p : FuncParser) (flag : Bool) (acc : List (Spanned ι)),
      (collectionLoop parse_item endTok fuel p flag acc).2.1 = true → flag = true := by
  intro fuel
  induction fuel with
  | zero => intro p flag acc h; exact h
  | succ n ih =>
    intro p flag acc h
    rw [collectionLoop] at h
    cases hstep : collectionStep parse_item endTok p flag with
    | finished p₁ => rw [hstep] at h; exact h
    | proceed p₁ flag₁ it =>
      rw [hstep] at h
      have hflag₁ := ih p₁ flag₁ _ h
      rcases collectionStep_flag_cases parse_item endTok p flag p₁ flag₁ it hstep with h2 | h2
      · rw [← h2]; exact hflag₁
      · rw [h2] at hflag₁; cases hflag₁

/-- C2: after a successful item, a following comma is consumed and marks
the collection not coercible; a following token that is neither a comma nor
the terminator records `expected comma` at the item's end position (a
zero-width span) and also marks it not coercible; the terminator leaves the
flag untouched; false is absorbing over the whole loop; and the loop
reports the collection coercible only if the flag was never lowered, so the
returned boolean is true only if no comma was consumed. -/
theorem c2_collection_comma_aware_flag {ι : Type} (parse_item : ItemParse ι)
    (endTok : Option Token) (p q₁ p₁ r₁ : FuncParser) (tk : Spanned Token)
    (pk : Option (Spanned Token)) (item : Spanned ι) (flag : Bool)
    (h0 : (FuncParser.skip_whitespace p).peek = (some tk, q₁))
    (h1 : some tk.v ≠ endTok)
    (h2 : parse_item q₁ = (Except.ok item, p₁))
    (h3 : (FuncParser.skip_whitespace p₁).peek = (pk, r₁)) :
    (pk.map Spanned.value = some Token.Comma →
      collectionStep parse_item endTok p flag = .proceed r₁.eat.2 false (some item))
  ∧ (∀ u, pk = some u → u.v ≠ Token.Comma → some u.v ≠ endTok →
      collectionStep parse_item endTok p flag
        = .proceed (r₁.expected_at "comma" item.span.stop) false (some item)
      ∧ (r₁.expected_at "comma" item.span.stop).feedback.problems
          = r₁.feedback.problems ++ [⟨"expected comma", Span.at item.span.stop⟩])
  ∧ (pk.map Spanned.value = endTok → some Token.Comma ≠ endTok →
      collectionStep parse_item endTok p flag = .proceed r₁ flag (some item))
  ∧ (∀ fuel pp acc, (collectionLoop parse_item endTok fuel pp false acc).2.1 = false)
  ∧ (∀ fuel pp fl acc,
      (collectionLoop parse_item endTok fuel pp fl acc).2.1 = true → fl = true) := by
  refine ⟨?_, ?_, ?_, collectionLoop_false_absorbing parse_item endTok,
    collectionLoop_flag_true parse_item endTok⟩
  · intro hp
    simp only [collectionStep, h0, h2, h3, Option.map_some, Spanned.value, h1, hp]
    simp [Spanned.value, h1, hp]
  · intro u hu hne hne2
    subst hu
    constructor
    · simp only [collectionStep, h0, h2, h3]
      simp [Spanned.value, h1, hne, hne2]
    · simp [FuncParser.expected_at, FuncParser.pushProblem, Feedback.push_problem]
  · intro hp hcomma
    simp only [collectionStep, h0, h2, h3]
    have hnc : pk.map Spanned.value ≠ some Token.Comma := by
      rw [hp]; exact fun hcontra => hcomma hcontra.symm
    simp [Spanned.value, h1, hp, hnc]
    intro hcontra
    exact absurd hcontra.symm hcomma

/-- C2 witness: the theorem applied to a concrete run whose item is
followed by a comma, and a concrete loop started with a lowered flag. -/
theorem c2_collection_comma_aware_flag_witness :
    collectionStep (fun q => (Except.ok ⟨(0:Nat), ⟨⟨0,1⟩,⟨0,2⟩⟩⟩, q.eat.2))
      (some Token.RightParen)
      (FuncParser.new [⟨Token.ExprBool true, ⟨⟨0,1⟩,⟨0,2⟩⟩⟩, ⟨Token.Comma, ⟨⟨0,2⟩,⟨0,3⟩⟩⟩,
        ⟨Token.RightParen, ⟨⟨0,3⟩,⟨0,4⟩⟩⟩]) true
      = .proceed ⟨Feedback.new, [⟨Token.RightParen, ⟨⟨0,3⟩,⟨0,4⟩⟩⟩], ⟨0,3⟩, none⟩ false
          (some ⟨0, ⟨⟨0,1⟩,⟨0,2⟩⟩⟩)
  ∧ (collectionLoop (fun q => (Except.ok ⟨(0:Nat), ⟨⟨0,1⟩,⟨0,2⟩⟩⟩, q.eat.2))
      (some Token.RightParen) 3
      (FuncParser.new [⟨Token.ExprBool true, ⟨⟨0,1⟩,⟨0,2⟩⟩⟩, ⟨Token.Comma, ⟨⟨0,2⟩,⟨0,3⟩⟩⟩,
        ⟨Token.RightParen, ⟨⟨0,3⟩,⟨0,4⟩⟩⟩]) false []).2.1 = false := by
  have h := c2_collection_comma_aware_flag (ι := Nat)
    (fun q => (Except.ok ⟨(0:Nat), ⟨⟨0,1⟩,⟨0,2⟩⟩⟩, q.eat.2))
    (some Token.RightParen)
    (FuncParser.new [⟨Token.ExprBool true, ⟨⟨0,1⟩,⟨0,2⟩⟩⟩, ⟨Token.Comma, ⟨⟨0,2⟩,⟨0,3⟩⟩⟩,
      ⟨Token.RightParen, ⟨⟨0,3⟩,⟨0,4⟩⟩⟩])
    ⟨Feedback.new, [⟨Token.Comma, ⟨⟨0,2⟩,⟨0,3⟩⟩⟩, ⟨Token.RightParen, ⟨⟨0,3⟩,⟨0,4⟩⟩⟩], ⟨0,2⟩,
      some (some ⟨Token.ExprBool true, ⟨⟨0,1⟩,⟨0,2⟩⟩⟩)⟩
    ⟨Feedback.new, [⟨Token.Comma, ⟨⟨0,2⟩,⟨0,3⟩⟩⟩, ⟨Token.RightParen, ⟨⟨0,3⟩,⟨0,4⟩⟩⟩], ⟨0,2⟩,
      none⟩
    ⟨Feedback.new, [⟨Token.RightParen, ⟨⟨0,3⟩,⟨0,4⟩⟩⟩], ⟨0,3⟩,
      some (some ⟨Token.Comma, ⟨⟨0,2⟩,⟨0,3⟩⟩⟩)⟩
    ⟨Token.ExprBool true, ⟨⟨0,1⟩,⟨0,2⟩⟩⟩
    (some ⟨Token.Comma, ⟨⟨0,2⟩,⟨0,3⟩⟩⟩)
    ⟨0, ⟨⟨0,1⟩,⟨0,2⟩⟩⟩
    true
    (by simp [FuncParser.skip_whitespace, FuncParser.eat_until, FuncParser.peek,
      FuncParser.eat, FuncParser.next, FuncParser.new, FuncParser.notWhitespace])
    (by simp)
    rfl
    (by simp [FuncParser.skip_whitespace, FuncParser.eat_until, FuncParser.peek,
      FuncParser.eat, FuncParser.next, FuncParser.notWhitespace])
  exact ⟨h.1 rfl, h.2.2.2.1 3 _ []⟩

theorem FuncParser.peek_some_measure_pos (p : FuncParser) (t : Spanned Token)
    (h : (FuncParser.peek p).1 = some t) : 1 ≤ p.measure := by
  rcases p with ⟨fb, toks, tp, pk⟩
  cases pk with
  | some o =>
    cases o with
    | some s => simp [FuncParser.measure]
    | none => simp [FuncParser.peek] at h
  | none =>
    cases toks with
    | nil => simp [FuncParser.peek, FuncParser.next] at h
    | cons a l => simp [FuncParser.measure]

/-- The state invariant of the lazy token stream: a buffered end-of-stream
means the stream is exhausted. Every state reachable from a fresh parser
satisfies it. -/
def FuncParser.wf (p : FuncParser) : Prop := p.peeked = some none → p.tokens = []

theorem FuncParser.wf_new (header : List (Spanned Token)) : (FuncParser.new header).wf := by
  intro h
  simp [FuncParser.new] at h

theorem FuncParser.wf_eat (p : FuncParser) (h : p.wf) : (FuncParser.eat p).2.wf := by
  rcases p with ⟨fb, toks, tp, pk⟩
  cases pk with
  | some o =>
    intro hh
    simp [FuncParser.eat] at hh
  | none =>
    cases toks with
    | nil => exact h
    | cons a l =>
      intro hh
      simp [FuncParser.eat, FuncParser.next] at hh

theorem FuncParser.wf_peek (p : FuncParser) (h : p.wf) : (FuncParser.peek p).2.wf := by
  rcases p with ⟨fb, toks, tp, pk⟩
  cases pk with
  | some o => exact h
  | none =>
    cases toks with
    | nil => intro hh; rfl
    | cons a l =>
      intro hh
      simp [FuncParser.peek, FuncParser.next] at hh

theorem FuncParser.measure_eat_until_le (f : Token → Bool) (b : Bool) :
    ∀ (n : Nat) (p : FuncParser), p.measure ≤ n →
      (FuncParser.eat_until f b p).measure ≤ p.measure := by
  intro n
  induction n with
  | zero =>
    intro p hp
    rw [FuncParser.eat_until]
    split
    · rename_i p₁ h
      have hm : p₁.measure = p.measure := by
        have hx := FuncParser.measure_peek p
        rw [h] at hx
        exact hx
      omega
    · rename_i t p₁ h
      have hpos : 1 ≤ p.measure := FuncParser.peek_some_measure_pos p t (by rw [h])
      exact absurd hp (by omega)
  | succ n ih =>
    intro p hp
    rw [FuncParser.eat_until]
    split
    · rename_i p₁ h
      have hm : p₁.measure = p.measure := by
        have hx := FuncParser.measure_peek p
        rw [h] at hx
        exact hx
      omega
    · rename_i t p₁ h
      have hpk : p₁.peeked = some (some t) := by
        have hx := FuncParser.peek_peeked p
        rw [h] at hx
        exact hx
      have hm1 : p₁.measure = p.measure := by
        have hx := FuncParser.measure_peek p
        rw [h] at hx
        exact hx
      have hm2 := FuncParser.measure_eat_buffered p₁ t hpk
      split
      · split
        · omega
        · omega
      · have hrec := ih (FuncParser.eat p₁).2 (by omega)
        omega

theorem FuncParser.measure_skip_whitespace_le (p : FuncParser) :
    (FuncParser.skip_whitespace p).measure ≤ p.measure :=
  FuncParser.measure_eat_until_le _ _ p.measure p le_rfl

theorem FuncParser.wf_eat_until (f : Token → Bool) (b : Bool) :
    ∀ (n : Nat) (p : FuncParser), p.measure ≤ n → p.wf →
      (FuncParser.eat_until f b p).wf := by
  intro n
  induction n with
  | zero =>
    intro p hp hwf
    rw [FuncParser.eat_until]
    split
    · rename_i p₁ h
      have hx := FuncParser.wf_peek p hwf
      rw [h] at hx
      exact hx
    · rename_i t p₁ h
      have hpos := FuncParser.peek_some_measure_pos p t (by rw [h])
      omega
  | succ n ih =>
    intro p hp hwf
    rw [FuncParser.eat_until]
    have hwf₁ : ∀ x p₁, p.peek = (x, p₁) → p₁.wf := by
      intro x p₁ h
      have hx := FuncParser.wf_peek p hwf
      rw [h] at hx
      exact hx
    split
    · rename_i p₁ h
      exact hwf₁ none p₁ h
    · rename_i t p₁ h
      have hpk : p₁.peeked = some (some t) := by
        have hx := FuncParser.peek_peeked p
        rw [h] at hx
        exact hx
      have hm1 : p₁.measure = p.measure := by
        have hx := FuncParser.measure_peek p
        rw [h] at hx
        exact hx
      have hm2 := FuncParser.measure_eat_buffered p₁ t hpk
      split
      · split
        · exact FuncParser.wf_eat p₁ (hwf₁ (some t) p₁ h)
        · exact hwf₁ (some t) p₁ h
      · exact ih (FuncParser.eat p₁).2 (by omega) (FuncParser.wf_eat p₁ (hwf₁ (some t) p₁ h))

theorem FuncParser.wf_skip_whitespace (p : FuncParser) (h : p.wf) :
    (FuncParser.skip_whitespace p).wf :=
  FuncParser.wf_eat_until _ _ p.measure p le_rfl h

theorem collectionStep_finished_of_exhausted {ι : Type} (parse_item : ItemParse ι)
    (endTok : Option Token) (fb : Feedback) (tp : Position)
    (pk : Option (Option (Spanned Token))) (h_pk : pk = none ∨ pk = some none) :
    ∀ fl, ∃ pf, collectionStep parse_item endTok ⟨fb, [], tp, pk⟩ fl = .finished pf := by
  intro fl
  have hsw : FuncParser.skip_whitespace ⟨fb, [], tp, pk⟩ = ⟨fb, [], tp, some none⟩ := by
    rcases h_pk with h | h <;> subst h <;>
      (rw [FuncParser.skip_whitespace, FuncParser.eat_until] <;>
        simp [FuncParser.peek, FuncParser.next])
  cases endTok with
  | none =>
    refine ⟨⟨fb, [], tp, none⟩, ?_⟩
    simp only [collectionStep, hsw]
    simp [FuncParser.peek, FuncParser.eat]
  | some e =>
    refine ⟨FuncParser.expected_at (Token.name e) tp ⟨fb, [], tp, none⟩, ?_⟩
    simp only [collectionStep, hsw]
    simp [FuncParser.peek, FuncParser.eat, FuncParser.pos]

theorem collectionStep_finished_at_end {ι : Type} (parse_item : ItemParse ι) (e : Token)
    (p : FuncParser) (u : Spanned Token) (hpk : p.peeked = some (some u)) (hv : u.v = e)
    (hws : FuncParser.notWhitespace e = true) :
    ∀ fl, ∃ pf, collectionStep parse_item (some e) p fl = .finished pf := by
  intro fl
  rcases p with ⟨fb, toks, tp, pk⟩
  obtain rfl : pk = some (some u) := hpk
  have hsw : FuncParser.skip_whitespace ⟨fb, toks, tp, some (some u)⟩
      = ⟨fb, toks, tp, some (some u)⟩ := by
    rw [FuncParser.skip_whitespace, FuncParser.eat_until]
    simp [FuncParser.peek, hv, hws]
  refine ⟨(FuncParser.eat ⟨fb, toks, tp, some (some u)⟩).2, ?_⟩
  simp only [collectionStep, hsw]
  simp [FuncParser.peek, Spanned.value, hv]

/-- A proceeding collection step under a stream-respecting item parser
either strictly shrinks the remaining stream, or keeps it no larger while
the very next step finishes the loop. -/
theorem collectionStep_progress {ι : Type} (parse_item : ItemParse ι) (endTok : Option Token)
    (hok : ∀ q it q', parse_item q = (Except.ok it, q') → q'.measure < q.measure)
    (hfix : ∀ q d ps q', parse_item q = (Except.error (d, some ps), q') → q'.measure < q.measure)
    (hnone : ∀ q d q', parse_item q = (Except.error (d, none), q') → q'.measure ≤ q.measure)
    (hwfi : ∀ q r q', parse_item q = (r, q') → q.wf → q'.wf)
    (hEnd : ∀ e, endTok = some e → FuncParser.notWhitespace e = true)
    (p : FuncParser) (flag : Bool) (hw : p.wf)
    (p' : FuncParser) (flag' : Bool) (it : Option (Spanned ι))
    (h : collectionStep parse_item endTok p flag = .proceed p' flag' it) :
    p'.wf ∧ (p'.measure < p.measure ∨
      (p'.measure ≤ p.measure ∧
        ∀ fl, ∃ pf, collectionStep parse_item endTok p' fl = .finished pf)) := by
  have hqm : (FuncParser.skip_whitespace p).measure ≤ p.measure :=
    FuncParser.measure_skip_whitespace_le p
  have hqw : (FuncParser.skip_whitespace p).wf := FuncParser.wf_skip_whitespace p hw
  rcases hpk : (FuncParser.skip_whitespace p).peek with ⟨pk, q₁⟩
  have hq₁m : q₁.measure = (FuncParser.skip_whitespace p).measure := by
    have hx := FuncParser.measure_peek (FuncParser.skip_whitespace p)
    rw [hpk] at hx
    exact hx
  have hq₁w : q₁.wf := by
    have hx := FuncParser.wf_peek (FuncParser.skip_whitespace p) hqw
    rw [hpk] at hx
    exact hx
  have hq₁pk : q₁.peeked = some pk := by
    have hx := FuncParser.peek_peeked (FuncParser.skip_whitespace p)
    rw [hpk] at hx
    exact hx
  simp only [collectionStep, hpk] at h
  by_cases h1 : pk.map Spanned.value = endTok
  · simp [h1] at h
  · simp only [h1, if_false, ite_false, if_neg] at h
    by_cases h2 : pk = none
    · rw [if_pos h2] at h
      cases hE : endTok with
      | some e => rw [hE] at h; simp at h
      | none => rw [hE] at h; simp at h
    · rw [if_neg h2] at h
      obtain ⟨u, rfl⟩ : ∃ u, pk = some u := by
        cases pk with
        | none => exact absurd rfl h2
        | some u => exact ⟨u, rfl⟩
      rcases hitem : parse_item q₁ with ⟨res, p₂⟩
      simp only [hitem] at h
      have hp₂w : p₂.wf := hwfi q₁ res p₂ hitem hq₁w
      cases res with
      | ok item =>
        have hp₂m : p₂.measure < q₁.measure := hok _ _ _ hitem
        have hrm0 : (FuncParser.skip_whitespace p₂).measure ≤ p₂.measure :=
          FuncParser.measure_skip_whitespace_le p₂
        have hrw0 : (FuncParser.skip_whitespace p₂).wf := FuncParser.wf_skip_whitespace p₂ hp₂w
        rcases hpk2 : (FuncParser.skip_whitespace p₂).peek with ⟨pk₂, r⟩
        have hrm : r.measure = (FuncParser.skip_whitespace p₂).measure := by
          have hx := FuncParser.measure_peek (FuncParser.skip_whitespace p₂)
          rw [hpk2] at hx
          exact hx
        have hrw : r.wf := by
          have hx := FuncParser.wf_peek (FuncParser.skip_whitespace p₂) hrw0
          rw [hpk2] at hx
          exact hx
        simp only [hpk2] at h
        by_cases hc1 : pk₂.map Spanned.value = some Token.Comma
        · rw [if_pos hc1] at h
          cases h
          refine ⟨FuncParser.wf_eat r hrw, Or.inl ?_⟩
          have hre := FuncParser.measure_eat_le r
          omega
        · rw [if_neg hc1] at h
          by_cases hc2 : pk₂.isSome = true ∧ pk₂.map Spanned.value ≠ endTok
          · rw [if_pos hc2] at h
            cases h
            refine ⟨hrw, Or.inl ?_⟩
            have hre : (FuncParser.expected_at "comma" item.span.stop r).measure = r.measure := rfl
            omega
          · rw [if_neg hc2] at h
            cases h
            exact ⟨hrw, Or.inl (by omega)⟩
      | error err =>
        rcases err with ⟨d, ps⟩
        cases ps with
        | some posi =>
          have hp₂m : p₂.measure < q₁.measure := hfix _ _ _ _ hitem
          cases h
          refine ⟨hp₂w, Or.inl ?_⟩
          have hre : (FuncParser.expected_at d posi p₂).measure = p₂.measure := rfl
          omega
        | none =>
          have hp₂m : p₂.measure ≤ q₁.measure := hnone _ _ _ hitem
          rcases hpk2 : p₂.peek with ⟨tok, r⟩
          have hrm : r.measure = p₂.measure := by
            have hx := FuncParser.measure_peek p₂
            rw [hpk2] at hx
            exact hx
          have hrw : r.wf := by
            have hx := FuncParser.wf_peek p₂ hp₂w
            rw [hpk2] at hx
            exact hx
          have hrpk : r.peeked = some tok := by
            have hx := FuncParser.peek_peeked p₂
            rw [hpk2] at hx
            exact hx
          simp only [hpk2] at h
          by_cases hc : tok.map Spanned.value ≠ endTok
          · rw [if_pos hc] at h
            cases tok with
            | some u =>
              cases h
              have hre := FuncParser.measure_eat_buffered r u hrpk
              refine ⟨FuncParser.wf_eat r hrw, Or.inl ?_⟩
              have hq : (FuncParser.expected_found_or_at d (some u)
                  (FuncParser.eat r).2.pos (FuncParser.eat r).2).measure
                  = (FuncParser.eat r).2.measure := rfl
              omega
            | none =>
              have htoks : r.tokens = [] := hrw hrpk
              rcases r with ⟨fbr, toksr, tpr, pkr⟩
              obtain rfl : pkr = some none := hrpk
              subst htoks
              cases h
              constructor
              · intro hh
                cases hh
              · refine Or.inr ⟨?_, ?_⟩
                · simp [FuncParser.expected_found_or_at, FuncParser.expected_at,
                    FuncParser.pushProblem, FuncParser.eat, FuncParser.measure] at hrm ⊢
                · intro fl
                  exact collectionStep_finished_of_exhausted parse_item endTok _ _ none
                    (Or.inl rfl) fl
          · rw [if_neg hc] at h
            have hc' : tok.map Spanned.value = endTok := not_not.mp hc
            cases tok with
            | some u =>
              have hEnd' : endTok = some u.v := by
                rw [← hc']
                rfl
              have hws := hEnd u.v hEnd'
              cases h
              constructor
              · exact hrw
              · have hq2 : (FuncParser.expected_found_or_at d (some u) r.pos r).measure
                    = r.measure := rfl
                refine Or.inr ⟨by omega, ?_⟩
                intro fl
                rw [hEnd']
                exact collectionStep_finished_at_end parse_item u.v
                  (FuncParser.expected_found_or_at d (some u) r.pos r) u hrpk rfl hws fl
            | none =>
              have hEnd' : endTok = none := by rw [← hc']; rfl
              have htoks : r.tokens = [] := hrw hrpk
              rcases r with ⟨fbr, toksr, tpr, pkr⟩
              obtain rfl : pkr = some none := hrpk
              subst htoks
              cases h
              constructor
              · intro hh
                exact rfl
              · refine Or.inr ⟨by
                  simp [FuncParser.expected_found_or_at, FuncParser.expected_at,
                    FuncParser.pushProblem, FuncParser.measure] at hrm ⊢, ?_⟩
                intro fl
                rw [hEnd']
                exact collectionStep_finished_of_exhausted parse_item none _ _ (some none)
                  (Or.inr rfl) fl

/-- With enough fuel the collection loop's result no longer depends on the
fuel: the loop terminates on every finite token stream. -/
theorem collectionLoop_fuel_indep {ι : Type} (parse_item : ItemParse ι) (endTok : Option Token)
    (hok : ∀ q it q', parse_item q = (Except.ok it, q') → q'.measure < q.measure)
    (hfix : ∀ q d ps q', parse_item q = (Except.error (d, some ps), q') → q'.measure < q.measure)
    (hnone : ∀ q d q', parse_item q = (Except.error (d, none), q') → q'.measure ≤ q.measure)
    (hwfi : ∀ q r q', parse_item q = (r, q') → q.wf → q'.wf)
    (hEnd : ∀ e, endTok = some e → FuncParser.notWhitespace e = true) :
    ∀ (n : Nat) (p : FuncParser) (fl : Bool) (acc : List (Spanned ι)) (f g : Nat),
      p.wf → p.measure ≤ n → n + 2 ≤ f → n + 2 ≤ g →
      collectionLoop parse_item endTok f p fl acc
        = collectionLoop parse_item endTok g p fl acc := by
  intro n
  induction n using Nat.strong_induction_on with
  | _ n ih =>
    intro p fl acc f g hw hm hf hg
    obtain ⟨f', rfl⟩ : ∃ f', f = f' + 1 := ⟨f - 1, by omega⟩
    obtain ⟨g', rfl⟩ : ∃ g', g = g' + 1 := ⟨g - 1, by omega⟩
    rw [collectionLoop, collectionLoop]
    cases hstep : collectionStep parse_item endTok p fl with
    | finished p₁ => simp only [hstep]
    | proceed p₁ fl₁ it =>
      simp only [hstep]
      obtain ⟨hw₁, hcase⟩ := collectionStep_progress parse_item endTok hok hfix hnone hwfi hEnd
        p fl hw p₁ fl₁ it hstep
      rcases hcase with hlt | ⟨hle, hfin⟩
      · exact ih p₁.measure (by omega) p₁ fl₁ _ f' g' hw₁ le_rfl (by omega) (by omega)
      · obtain ⟨f'', rfl⟩ : ∃ x, f' = x + 1 := ⟨f' - 1, by omega⟩
        obtain ⟨g'', rfl⟩ : ∃ x, g' = x + 1 := ⟨g' - 1, by omega⟩
        rw [collectionLoop, collectionLoop]
        obtain ⟨pf, hpf⟩ := hfin fl₁
        simp only [hpf]

/-- C3: when the item parser fails without a fixed position, the loop
records `expected <description>, found <token name>` (or plain
`expected <description>` when nothing is left), and if the peeked token is
not the terminator it consumes exactly that one token; consequently, for an
item parser that never grows the stream and shrinks it on success or
fixed-position failure, the loop's result is fuel-independent once the fuel
exceeds the remaining stream: parsing any finite token stream terminates. -/
theorem c3_collection_forward_progress {ι : Type} (parse_item : ItemParse ι)
    (endTok : Option Token)
    (hok : ∀ q it q', parse_item q = (Except.ok it, q') → q'.measure < q.measure)
    (hfix : ∀ q d ps q', parse_item q = (Except.error (d, some ps), q') → q'.measure < q.measure)
    (hnone : ∀ q d q', parse_item q = (Except.error (d, none), q') → q'.measure ≤ q.measure)
    (hwfi : ∀ q r q', parse_item q = (r, q') → q.wf → q'.wf)
    (hEnd : ∀ e, endTok = some e → FuncParser.notWhitespace e = true) :
    (∀ (p q₁ p₁ r : FuncParser) (tk : Spanned Token) (desc : String)
        (tok : Option (Spanned Token)) (flag : Bool),
      (FuncParser.skip_whitespace p).peek = (some tk, q₁) →
      some tk.v ≠ endTok →
      parse_item q₁ = (Except.error (desc, none), p₁) →
      p₁.peek = (tok, r) →
      ((∀ u, tok = some u → some u.v ≠ endTok →
        collectionStep parse_item endTok p flag
          = .proceed (FuncParser.expected_found desc u (FuncParser.eat r).2) flag none
        ∧ (FuncParser.expected_found desc u (FuncParser.eat r).2).feedback.problems
            = r.feedback.problems
                ++ [⟨"expected " ++ desc ++ ", found " ++ u.v.name, u.span⟩]
        ∧ (FuncParser.eat r).1 = some u
        ∧ (FuncParser.eat r).2.measure + 1 = r.measure)
      ∧ (tok = none → endTok ≠ none →
          collectionStep parse_item endTok p flag
            = .proceed
                (FuncParser.expected_at desc (FuncParser.eat r).2.pos (FuncParser.eat r).2)
                flag none)))
  ∧ (∀ (p : FuncParser) (fl : Bool) (acc : List (Spanned ι)) (f g : Nat),
      p.wf → p.measure + 2 ≤ f → p.measure + 2 ≤ g →
      collectionLoop parse_item endTok f p fl acc
        = collectionLoop parse_item endTok g p fl acc) := by
  constructor
  · intro p q₁ p₁ r tk desc tok flag h0 h1 h2 h4
    have hrpk : r.peeked = some tok := by
      have hx := FuncParser.peek_peeked p₁
      rw [h4] at hx
      exact hx
    constructor
    · intro u hu hune
      subst hu
      refine ⟨?_, ?_, ?_, FuncParser.measure_eat_buffered r u hrpk⟩
      · simp only [collectionStep, h0, h2, h4]
        simp [Spanned.value, h1, hune, FuncParser.expected_found_or_at]
      · rcases r with ⟨fbr, toksr, tpr, pkr⟩
        obtain rfl : pkr = some (some u) := hrpk
        simp [FuncParser.expected_found, FuncParser.pushProblem, Feedback.push_problem,
          FuncParser.eat]
      · rcases r with ⟨fbr, toksr, tpr, pkr⟩
        obtain rfl : pkr = some (some u) := hrpk
        simp [FuncParser.eat]
    · intro hu hEndne
      subst hu
      have hcond : (none : Option (Spanned Token)).map Spanned.value ≠ endTok := by
        simpa using fun hx => hEndne hx.symm
      have hne2 : ¬((none : Option Token) = endTok) := fun hx => hEndne hx.symm
      simp only [collectionStep, h0, h2, h4]
      simp [Spanned.value, h1, hcond, hne2, FuncParser.expected_found_or_at]
  · intro p fl acc f g hw hf hg
    exact collectionLoop_fuel_indep parse_item endTok hok hfix hnone hwfi hEnd
      p.measure p fl acc f g hw le_rfl hf hg

/-- C3 witness: the theorem applied to a concrete item parser that always
fails without a fixed position, a colon in front of the closing paren, and
two sufficient fuels. -/
theorem c3_collection_forward_progress_witness :
    collectionStep
      (fun q => ((Except.error ("value", none) : Except (String × Option Position) (Spanned Expr)), q))
      (some Token.RightParen)
      (FuncParser.new [⟨Token.Colon, ⟨⟨0,1⟩,⟨0,2⟩⟩⟩, ⟨Token.RightParen, ⟨⟨0,2⟩,⟨0,3⟩⟩⟩]) true
      = .proceed
          (FuncParser.expected_found "value" ⟨Token.Colon, ⟨⟨0,1⟩,⟨0,2⟩⟩⟩
            ⟨Feedback.new, [⟨Token.RightParen, ⟨⟨0,2⟩,⟨0,3⟩⟩⟩], ⟨0,2⟩, none⟩) true none
  ∧ collectionLoop
      (fun q => ((Except.error ("value", none) : Except (String × Option Position) (Spanned Expr)), q))
      (some Token.RightParen) 4
      (FuncParser.new [⟨Token.Colon, ⟨⟨0,1⟩,⟨0,2⟩⟩⟩, ⟨Token.RightParen, ⟨⟨0,2⟩,⟨0,3⟩⟩⟩]) true []
      = collectionLoop
          (fun q => ((Except.error ("value", none) : Except (String × Option Position) (Spanned Expr)), q))
          (some Token.RightParen) 5
          (FuncParser.new [⟨Token.Colon, ⟨⟨0,1⟩,⟨0,2⟩⟩⟩, ⟨Token.RightParen, ⟨⟨0,2⟩,⟨0,3⟩⟩⟩])
          true [] := by
  have h := c3_collection_forward_progress (ι := Expr)
    (fun q => ((Except.error ("value", none) : Except (String × Option Position) (Spanned Expr)), q))
    (some Token.RightParen)
    (by intro q it q' hq; simp at hq)
    (by intro q d ps q' hq; simp at hq)
    (by
      intro q d q' hq
      simp only [Prod.mk.injEq] at hq
      rw [← hq.2])
    (by
      intro q r q' hq hw
      simp only [Prod.mk.injEq] at hq
      rw [← hq.2]
      exact hw)
    (by
      intro e he
      injection he with he2
      subst he2
      rfl)
  constructor
  · have hstep := (h.1
      (FuncParser.new [⟨Token.Colon, ⟨⟨0,1⟩,⟨0,2⟩⟩⟩, ⟨Token.RightParen, ⟨⟨0,2⟩,⟨0,3⟩⟩⟩])
      ⟨Feedback.new, [⟨Token.RightParen, ⟨⟨0,2⟩,⟨0,3⟩⟩⟩], ⟨0,2⟩,
        some (some ⟨Token.Colon, ⟨⟨0,1⟩,⟨0,2⟩⟩⟩)⟩
      ⟨Feedback.new, [⟨Token.RightParen, ⟨⟨0,2⟩,⟨0,3⟩⟩⟩], ⟨0,2⟩,
        some (some ⟨Token.Colon, ⟨⟨0,1⟩,⟨0,2⟩⟩⟩)⟩
      ⟨Feedback.new, [⟨Token.RightParen, ⟨⟨0,2⟩,⟨0,3⟩⟩⟩], ⟨0,2⟩,
        some (some ⟨Token.Colon, ⟨⟨0,1⟩,⟨0,2⟩⟩⟩)⟩
      ⟨Token.Colon, ⟨⟨0,1⟩,⟨0,2⟩⟩⟩ "value"
      (some ⟨Token.Colon, ⟨⟨0,1⟩,⟨0,2⟩⟩⟩) true
      (by simp [FuncParser.skip_whitespace, FuncParser.eat_until, FuncParser.peek,
        FuncParser.eat, FuncParser.next, FuncParser.new, FuncParser.notWhitespace])
      (by simp)
      rfl
      (by simp [FuncParser.peek])).1
      ⟨Token.Colon, ⟨⟨0,1⟩,⟨0,2⟩⟩⟩ rfl (by simp)
    exact hstep.1
  · exact h.2
      (FuncParser.new [⟨Token.Colon, ⟨⟨0,1⟩,⟨0,2⟩⟩⟩, ⟨Token.RightParen, ⟨⟨0,2⟩,⟨0,3⟩⟩⟩])
      true [] 4 5 (FuncParser.wf_new _)
      (by simp [FuncParser.new, FuncParser.measure])
      (by simp [FuncParser.new, FuncParser.measure])
